import Mathlib

/-!
# SwaggerBuilder: the fragment classifier and the document assembler

A shallow embedding of `cmd/swagger/swagger.go` (`createSwagger`,
`validateAndTrimYAML`, `Swagger.CreateMain`, `Swagger.CreateOperation`,
`Swagger.CreateComponents`, `Swagger.String`) and theorems about it.

Modelling conventions.

* A Go `string` is modelled as a list of elements (`Str`), each a Unicode
  code point or a stray continuation byte (`GoChar`). Every fragment that
  reaches `createSwagger` is comment text of a Go source file accepted by
  `go/parser`, hence valid UTF-8; the one place where the program leaves UTF-8
  text is a byte slice that cuts a multi-byte character, and what it leaves are
  continuation bytes (`sliceFrom`). Where Go works on bytes (`len`, slicing,
  `cmp.Compare`) the model goes through the bytes of the string, `utf8Bytes`.
* A Go `map[string]string` is modelled as a list of entries with pairwise
  distinct keys (`GoMap`); `range` over a map visits the entries in an
  unspecified order, so `Swagger.String` takes the two iteration orders as
  arguments and theorems quantify over every permutation of the entries.
* A method with a pointer receiver that returns `error` is modelled as a
  function returning the new state together with the optional error.
* The YAML library and the OpenAPI validator are parameters.
-/

namespace SwaggerBuilder

/-- One element of a Go string as the program sees it: a Unicode code point
(a character of valid UTF-8 text) or one stray continuation byte `0x80 + b`.
Stray bytes arise where a slice cuts a multi-byte character: Go keeps them,
decodes each of them as `RuneError` and writes them back unchanged. -/
inductive GoChar where
  | rune (c : Char)
  | stray (b : Fin 64)
  deriving DecidableEq, Repr

open GoChar

/-- A Go string: UTF-8 text, possibly with stray continuation bytes. -/
abbrev Str := List GoChar

/-- The Go string of a string literal. -/
@[simp]
def lit (s : String) : Str := s.toList.map rune

/-! ## The `strings`, `unicode`, `cmp` and `slices` functions the program calls -/

/-- Go `unicode.IsSpace`: the Unicode White_Space property. -/
def unicodeIsSpace (c : Char) : Bool :=
  let n := c.toNat
  (decide (9 ≤ n) && decide (n ≤ 13)) || n == 32 || n == 0x85 || n == 0xA0 || n == 0x1680
    || (decide (0x2000 ≤ n) && decide (n ≤ 0x200A)) || n == 0x2028 || n == 0x2029
    || n == 0x202F || n == 0x205F || n == 0x3000

/-- Whether the rune Go decodes at an element is white space: `unicode.IsSpace`
of the code point; a stray byte decodes as `RuneError`, which is not. -/
def isSpace (u : GoChar) : Bool :=
  match u with
  | rune c => unicodeIsSpace c
  | stray _ => false

/-- Go `strings.TrimSpace`: leading and trailing white space removed. -/
def TrimSpace (s : Str) : Str :=
  ((s.dropWhile isSpace).reverse.dropWhile isSpace).reverse

/-- Go `strings.HasPrefix`. -/
def HasPrefix (s p : Str) : Bool :=
  match p, s with
  | [], _ => true
  | _ :: _, [] => false
  | a :: p1, b :: s1 => a == b && HasPrefix s1 p1

/-- Go `strings.Split(s, sep)` for a one-character separator: the pieces
between the separators; never empty (`Split "" sep` is `[""]`). -/
def Split (s : Str) (sep : GoChar) : List Str :=
  match s with
  | [] => [[]]
  | c :: cs =>
    if c = sep then [] :: Split cs sep
    else
      match Split cs sep with
      | [] => [[c]]
      | l :: ls => (c :: l) :: ls

/-- Go `strings.SplitN(s, sep, 2)` for a one-character separator: cut at the
first separator, or the whole string when there is none. -/
def SplitN2 (s : Str) (sep : GoChar) : List Str :=
  match s with
  | [] => [[]]
  | c :: cs =>
    if c = sep then [[], cs]
    else
      match SplitN2 cs sep with
      | [] => [[c]]
      | l :: ls => (c :: l) :: ls

/-- Go `strings.Fields`: the maximal runs of non-space characters. -/
def Fields (s : Str) : List Str :=
  match s with
  | [] => []
  | c :: cs =>
    if isSpace c then Fields cs
    else
      match cs with
      | [] => [[c]]
      | d :: _ =>
        if isSpace d then [c] :: Fields cs
        else
          match Fields cs with
          | [] => [[c]]
          | t :: ts => (c :: t) :: ts

/-- Go `strings.ReplaceAll(s, old, new)` for a one-character `old`. -/
def ReplaceAll (s : Str) (old : GoChar) (new : Str) : Str :=
  match s with
  | [] => []
  | c :: cs => if c = old then new ++ ReplaceAll cs old new else c :: ReplaceAll cs old new

/-- The UTF-8 encoding of a code point: one to four bytes. -/
def utf8EncodeChar (c : Char) : List Nat :=
  if c.toNat < 0x80 then [c.toNat]
  else if c.toNat < 0x800 then [0xC0 + c.toNat / 64, 0x80 + c.toNat % 64]
  else if c.toNat < 0x10000 then
    [0xE0 + c.toNat / 4096, 0x80 + c.toNat / 64 % 64, 0x80 + c.toNat % 64]
  else
    [0xF0 + c.toNat / 262144, 0x80 + c.toNat / 4096 % 64, 0x80 + c.toNat / 64 % 64,
      0x80 + c.toNat % 64]

/-- The bytes of one element of a Go string. -/
def bytesOf (u : GoChar) : List Nat :=
  match u with
  | rune c => utf8EncodeChar c
  | stray b => [0x80 + b.val]

/-- The bytes of a Go string. -/
def utf8Bytes (s : Str) : List Nat :=
  match s with
  | [] => []
  | u :: us => bytesOf u ++ utf8Bytes us

/-- Lexicographic comparison of two byte sequences: `-1`, `0` or `+1`. -/
def compareBytes (a b : List Nat) : Int :=
  match a, b with
  | [], [] => 0
  | [], _ :: _ => -1
  | _ :: _, [] => 1
  | x :: a1, y :: b1 =>
    if x < y then -1
    else if y < x then 1
    else compareBytes a1 b1

/-- Go `cmp.Compare` on strings: the strings are compared byte by byte. -/
def Compare (a b : Str) : Int := compareBytes (utf8Bytes a) (utf8Bytes b)

/-- Insertion of one element into a list sorted by `cmp`. -/
def insertSorted {α : Type} (cmp : α → α → Int) (a : α) (l : List α) : List α :=
  match l with
  | [] => [a]
  | b :: l1 => if cmp a b ≤ 0 then a :: b :: l1 else b :: insertSorted cmp a l1

/-- Go `slices.SortFunc(x, cmp)`. The library's sort is not stable; the
program only sorts entries of a map by key, which are pairwise distinct, so
the sorted result does not depend on the algorithm. -/
def SortFunc {α : Type} (cmp : α → α → Int) (l : List α) : List α :=
  l.foldr (insertSorted cmp) []

/-- Number of bytes of one element of a Go string. -/
def utf8Len (u : GoChar) : Nat := (bytesOf u).length

/-- Go `len(s)`: the number of bytes. -/
def len (s : Str) : Nat := (utf8Bytes s).length

/-- Continuation bytes `0x80 + b` as stray elements of a Go string. -/
def strayBytes (bytes : List Nat) : Str :=
  bytes.map (fun byte => stray (Fin.ofNat (byte - 0x80)))

/-- Result of a Go slice expression `s[n:]` on a string. -/
inductive Slice where
  | ok (rest : Str)
  | outOfRange
  deriving DecidableEq, Repr

/-- Go `s[n:]` (`n` counts bytes): a runtime panic when `n > len(s)`,
otherwise the bytes from offset `n` on. When the cut falls inside a multi-byte
character, what is left of that character are continuation bytes. -/
def sliceFrom (s : Str) (n : Nat) : Slice :=
  match s with
  | [] => if n = 0 then .ok [] else .outOfRange
  | u :: us =>
    if n = 0 then .ok (u :: us)
    else if utf8Len u ≤ n then sliceFrom us (n - utf8Len u)
    else .ok (strayBytes ((bytesOf u).drop n) ++ us)

/-- What is left of an element once its first byte is cut off: nothing for a
single-byte character, the continuation bytes of a multi-byte character. -/
def afterFirstByte (u : GoChar) : Str := strayBytes ((bytesOf u).drop 1)

/-! ## The data model -/

/-- A Go `map[string]string`: entries with pairwise distinct keys. -/
abbrev GoMap := List (Str × Str)

/-- Go `v, exists := m[k]`. -/
def mapLookup (m : GoMap) (k : Str) : Option Str :=
  match m with
  | [] => none
  | (k1, v1) :: rest => if k1 = k then some v1 else mapLookup rest k

/-- Go `m[k] = v`. -/
def mapStore (m : GoMap) (k v : Str) : GoMap :=
  match m with
  | [] => [(k, v)]
  | (k1, v1) :: rest => if k1 = k then (k, v) :: rest else (k1, v1) :: mapStore rest k v

/-- The errors the program builds with `fmt.Errorf`. -/
inductive Error where
  /-- The text `error split n`. -/
  | splitN
  /-- The text `invalid YAML: ...; text: ...`, with the offending text. -/
  | invalidYAML (text : Str)
  /-- The text `unable to format YAML: ...`. -/
  | formatYAML
  /-- The text `err: ...` wrapped around an error of `validateAndTrimYAML`. -/
  | wrapped (inner : Error)
  /-- The text `main section already set`. -/
  | mainAlreadySet
  /-- The text `main section should not contain 'components:' or 'paths:'`. -/
  | reservedKey
  /-- The text `invalid operation part: ...`. -/
  | invalidOperationPart (part : Str)
  /-- The text `invalid component part: ...`. -/
  | invalidComponentPart (part : Str)
  /-- An error returned by the OpenAPI validator. -/
  | validation (diagnostic : Str)
  deriving DecidableEq, Repr

/-- The struct `Swagger`. -/
structure Swagger where
  mainSet : Bool
  main : Str
  operations : GoMap
  components : GoMap
  deriving DecidableEq, Repr

/-- `NewSwagger`. -/
def NewSwagger : Swagger :=
  { mainSet := false, main := [], operations := [], components := [] }

/-! ## The assembler -/

/-- `Swagger.CreateMain`. -/
def Swagger.CreateMain (s : Swagger) (part : Str) : Swagger × Option Error :=
  if s.mainSet then (s, some .mainAlreadySet)
  else if (Split part (rune '\n')).any (fun line =>
      HasPrefix (TrimSpace line) (lit "components:") || HasPrefix (TrimSpace line) (lit "paths:"))
  then (s, some .reservedKey)
  else ({ s with main := part, mainSet := true }, none)

/-- The `lines[1:]` loop of `CreateOperation` and `CreateComponents`: every
payload line, tabs replaced, behind `indent` and followed by a line break. -/
def indentLines (indent : Str) (lines : List Str) : Str :=
  match lines with
  | [] => []
  | line :: rest => indent ++ ReplaceAll line (rune '\t') (lit "    ") ++ (lit "\n") ++ indentLines indent rest

/-- The `if existingContent, exists := m[key]; exists` statement of
`CreateOperation` (lines 236-240) and `CreateComponents` (lines 258-262):
the content is appended to what the key holds, after a line break, or stored
when the key is new. -/
def mergeContent (m : GoMap) (key content : Str) : GoMap :=
  match mapLookup m key with
  | some existingContent => mapStore m key (existingContent ++ (lit "\n") ++ content)
  | none => mapStore m key content

/-- The `operationContent` of `CreateOperation` (lines 231-234). -/
def operationContent (method operationID : Str) (payload : List Str) : Str :=
  (lit "  ") ++ method ++ (lit ":\n    operationId: ") ++ operationID ++ (lit "\n")
    ++ indentLines (lit "    ") payload

/-- `Swagger.CreateOperation`. -/
def Swagger.CreateOperation (s : Swagger) (part : Str) : Swagger × Option Error :=
  let lines := Split part (rune '\n')
  let header := Fields (lines.headD [])
  match header with
  | method :: path :: operationID :: _ =>
    ({ s with operations :=
        mergeContent s.operations path (operationContent method operationID lines.tail) }, none)
  | _ => (s, some (.invalidOperationPart part))

/-- `Swagger.CreateComponents`. -/
def Swagger.CreateComponents (s : Swagger) (part : Str) : Swagger × Option Error :=
  let lines := Split part (rune '\n')
  let header := Fields (lines.headD [])
  match header with
  | componentType :: _ =>
    ({ s with components :=
        mergeContent s.components componentType (indentLines (lit "  ") lines.tail) }, none)
  | [] => (s, some (.invalidComponentPart part))

/-- The inner loop of `String` (lines 283-288 and 296-301): every line of
`content` that is not blank, behind four spaces. -/
def writeContent (content : Str) : Str :=
  ((Split content (rune '\n')).filter (fun line => TrimSpace line != [])).foldr
    (fun line acc => (lit "    ") ++ line ++ (lit "\n") ++ acc) []

/-- One `  key:` line and the content written under it. -/
def writeEntry (v : Str × Str) : Str :=
  (lit "  ") ++ v.1 ++ (lit ":\n") ++ writeContent v.2

/-- All entries, in the order given. -/
def writeEntries (l : List (Str × Str)) : Str :=
  match l with
  | [] => []
  | v :: rest => writeEntry v ++ writeEntries rest

/-- `Swagger.String`. `opsIter` and `compsIter` are the orders in which the two
`range` loops visit `s.operations` and `s.components`. -/
def Swagger.String (s : Swagger) (opsIter compsIter : GoMap) : Str :=
  s.main
    ++ (if s.operations.length > 0 then
          (lit "\npaths:\n")
            ++ writeEntries (SortFunc (fun a b => Compare a.1 b.1) opsIter)
        else [])
    ++ (if s.components.length > 0 then
          (lit "components:\n") ++ writeEntries compsIter
        else [])

/-! ## The classifier and the driver -/

/-- What the YAML library does with a payload: `yaml.Unmarshal` fails, or
`yaml.Marshal` of the parsed value fails, or the value is written back. -/
inductive YamlResult where
  | parseError
  | marshalError
  | formatted (text : Str)
  deriving DecidableEq, Repr

/-- `validateAndTrimYAML`; `yaml` is the YAML library. -/
def validateAndTrimYAML (yaml : Str → YamlResult) (yamlContent : Str) : Except Error Str :=
  match SplitN2 yamlContent (rune '\n') with
  | p0 :: p1 :: _ =>
    if TrimSpace p1 = [] then .ok p0
    else
      match yaml p1 with
      | .parseError => .error (.invalidYAML p1)
      | .marshalError => .error .formatYAML
      | .formatted formattedYAML => .ok (p0 ++ (lit "\n") ++ formattedYAML)
  | _ => .error .splitN

/-- How a call of `createSwagger` ends. -/
inductive Outcome where
  /-- The function returns the pair `(text, err)`. -/
  | returned (text : Str) (err : Option Error)
  /-- A runtime panic: slice bounds out of range. -/
  | runtimePanic
  /-- The process exits in `log.Fatal` with this message. -/
  | fatal (message : Str)
  deriving DecidableEq, Repr

/-- The part of a `case` of `createSwagger` after the prefix test:
`part = part[len(directive)+1:]`, then the merge `create`. The result is the
next state (`Sum.inl`) or the way the function ends (`Sum.inr`). -/
def mergePart (create : Str → Swagger × Option Error) (directive part : Str) :
    Swagger ⊕ Outcome :=
  match sliceFrom part (len directive + 1) with
  | .outOfRange => .inr .runtimePanic
  | .ok rest =>
    match create rest with
    | (_, some err) => .inr (.returned [] (some err))
    | (swagger, none) => .inl swagger

/-- The `switch` statement of `createSwagger` (lines 123-141). -/
def classifyAndMerge (swagger : Swagger) (part : Str) : Swagger ⊕ Outcome :=
  if HasPrefix part (lit "swagger:main") then
    mergePart swagger.CreateMain (lit "swagger:main") part
  else if HasPrefix part (lit "swagger:operation") then
    mergePart swagger.CreateOperation (lit "swagger:operation") part
  else if HasPrefix part (lit "swagger:components") then
    mergePart swagger.CreateComponents (lit "swagger:components") part
  else .inr (.fatal ((lit "Unknown part: ") ++ part))

/-- The body of the loop of `createSwagger` for one fragment. -/
def createSwaggerStep (yaml : Str → YamlResult) (swagger : Swagger) (part : Str) :
    Swagger ⊕ Outcome :=
  if TrimSpace part = [] then .inl swagger
  else
    match validateAndTrimYAML yaml part with
    | .error err => .inr (.returned [] (some (.wrapped err)))
    | .ok trimmed => classifyAndMerge swagger trimmed

/-- The loop of `createSwagger`. -/
def createSwaggerLoop (yaml : Str → YamlResult) (swagger : Swagger) (swaggerParts : List Str) :
    Swagger ⊕ Outcome :=
  match swaggerParts with
  | [] => .inl swagger
  | part :: rest =>
    match createSwaggerStep yaml swagger part with
    | .inl next => createSwaggerLoop yaml next rest
    | .inr outcome => .inr outcome

/-- `createSwagger`. `yaml` is the YAML library, `validateSwagger` the OpenAPI
validator (`none` for a valid document), `rangeOps` and `rangeComps` the order
in which `range` visits the two maps. -/
def createSwagger (yaml : Str → YamlResult) (validateSwagger : Str → Option Error)
    (rangeOps rangeComps : GoMap → GoMap) (swaggerParts : List Str) : Outcome :=
  match createSwaggerLoop yaml NewSwagger swaggerParts with
  | .inr outcome => outcome
  | .inl swagger =>
    let newSwagger := swagger.String (rangeOps swagger.operations) (rangeComps swagger.components)
    match validateSwagger newSwagger with
    | some err => .returned [] (some err)
    | none => .returned newSwagger none

/-! ## Vocabulary of the statements -/

/-- A call of one of the three merge methods. -/
inductive Call where
  | main (part : Str)
  | operation (part : Str)
  | components (part : Str)
  deriving DecidableEq, Repr

/-- The state after a call (an error leaves the state as the method left it). -/
def Call.run (s : Swagger) (c : Call) : Swagger :=
  match c with
  | .main part => (s.CreateMain part).1
  | .operation part => (s.CreateOperation part).1
  | .components part => (s.CreateComponents part).1

/-- The state after a sequence of calls. -/
def runCalls (s : Swagger) (calls : List Call) : Swagger :=
  calls.foldl Call.run s

/-- The first line of a text: what stands before the first line break. -/
def firstLine (part : Str) : Str := part.takeWhile (fun c => c != (rune '\n'))

/-- A block-style YAML text has `key` as a top-level key: some line begins,
in its first column, with `key:`. -/
def hasTopLevelKey (payload key : Str) : Bool :=
  (Split payload (rune '\n')).any (fun line => HasPrefix line (key ++ (lit ":")))

/-- Scenario A of the specification, on the assembler: the main payload and
the operation fragment, canonicalised. -/
def scenarioA : Swagger :=
  ((NewSwagger.CreateMain (lit "info:\n  title: X\n  version: \"1\"\n")).1.CreateOperation
    (lit "GET /items ?pub listItems\nresponses:\n  \"200\":\n    description: ok\n")).1

/-- A line that is white space followed by `paths:` or `components:`: a
reserved key at any depth of indentation. -/
def ReservedLine (line : Str) : Prop :=
  ∃ indent rest, (∀ c ∈ indent, isSpace c = true) ∧
    (line = indent ++ (lit "components:") ++ rest ∨ line = indent ++ (lit "paths:") ++ rest)

/-- The header tokens of an operation or component part. -/
def headerOf (part : Str) : List Str := Fields (firstLine part)

/-- The payload lines of a part: the lines after the first. -/
def payloadOf (part : Str) : List Str := (Split part (rune '\n')).tail

/-- The method of an operation part: the first header token. -/
def methodOf (part : Str) : Str := (headerOf part).headD []

/-- The third header token of an operation part. -/
def thirdTokenOf (part : Str) : Str := (headerOf part).getD 2 []

/-- The paths of the parts that `CreateOperation` accepts, in call order. -/
def pathsOf (parts : List Str) : List Str :=
  parts.filterMap (fun part =>
    match headerOf part with
    | _ :: path :: _ :: _ => some path
    | _ => none)

/-- A text as the sequence of its lines, each followed by a line break. -/
def unlines (ls : List Str) : Str :=
  match ls with
  | [] => []
  | l :: rest => l ++ (lit "\n") ++ unlines rest

/-- Contents joined in order, a line break between two neighbours. -/
def joinBreak (contents : List Str) : Str :=
  match contents with
  | [] => []
  | [c] => c
  | c :: rest => c ++ (lit "\n") ++ joinBreak rest

/-- A line that is not blank: trimming leaves something. -/
def nonBlank (line : Str) : Bool := TrimSpace line != []

/-- A line indented by exactly `n` spaces: `n` spaces, then a character that
is not a space. -/
def indentedExactly (n : Nat) (line : Str) : Bool :=
  match n, line with
  | 0, [] => false
  | 0, c :: _ => c != (rune ' ')
  | _ + 1, [] => false
  | k + 1, c :: rest => c == (rune ' ') && indentedExactly k rest

/-- A path key line of the paths section: indentation of exactly two spaces. -/
def isPathKeyLine (line : Str) : Bool := indentedExactly 2 line

/-- A method key line of the paths section: indentation of exactly six spaces. -/
def isMethodKeyLine (line : Str) : Bool := indentedExactly 6 line

/-- The lines `String` writes for one accepted operation part: the method key,
the operation id, and the payload lines that are not blank. -/
def operationLines (part : Str) : List Str :=
  ((lit "      ") ++ methodOf part ++ (lit ":"))
    :: ((lit "        operationId: ") ++ thirdTokenOf part)
    :: ((payloadOf part).filter nonBlank).map
        (fun line => (lit "        ") ++ ReplaceAll line (rune '\t') (lit "    "))

/-- The lines `String` writes for the payload of one component part: the lines
that are not blank, tabs replaced, behind six spaces. -/
def componentLines (part : Str) : List Str :=
  ((payloadOf part).filter nonBlank).map
    (fun line => (lit "      ") ++ ReplaceAll line (rune '\t') (lit "    "))

/-- The keys of a map, in the order of its entries. -/
def keysOf (m : GoMap) : List Str := m.map Prod.fst

/-- A token: not empty, and free of white space. -/
def IsToken (t : Str) : Prop := t ≠ [] ∧ ∀ c ∈ t, isSpace c = false

/-- The lines `String` writes for a stored content: its lines that are not
blank, behind four spaces. -/
def contentLines (content : Str) : List Str :=
  ((Split content (rune '\n')).filter nonBlank).map (fun line => (lit "    ") ++ line)

/-- The lines `String` writes for one entry of a map: the key line, then the
lines of the content. -/
def entryLines (v : Str × Str) : List Str :=
  ((lit "  ") ++ v.1 ++ (lit ":")) :: contentLines v.2

/-- The statement that follows a merge in `createSwagger`,
`if err := ...; err != nil { return "", err }`: the loop goes on with the new
state, or the function returns the error and the empty text. -/
def afterCreate (r : Swagger × Option Error) : Swagger ⊕ Outcome :=
  match r with
  | (_, some err) => .inr (.returned [] (some err))
  | (swagger, none) => .inl swagger

/-- What holds of every Swagger the program builds: the keys of each map are
pairwise distinct (they are keys of a Go map) and are tokens (they are fields
of a header line). -/
def Swagger.WellFormed (s : Swagger) : Prop :=
  (keysOf s.operations).Nodup ∧ (keysOf s.components).Nodup ∧
    (∀ k ∈ keysOf s.operations, IsToken k) ∧ (∀ k ∈ keysOf s.components, IsToken k)

/-- The operation part `m p id` (one space between two tokens) followed by
the payload lines, each after a line break. -/
def operationPart (m p id : Str) (payload : List Str) : Str :=
  m ++ (lit " ") ++ p ++ (lit " ") ++ id ++ payload.flatMap (fun line => (lit "\n") ++ line)

end SwaggerBuilder

/-! # Theorems -/

namespace SwaggerBuilder

open GoChar

/-! ## Facts about the string functions -/

theorem hasPrefix_iff (s p : Str) : HasPrefix s p = true ↔ ∃ r, s = p ++ r := by
  induction p generalizing s with
  | nil => cases s <;> simp [HasPrefix]
  | cons a p ih =>
    cases s with
    | nil => simp [HasPrefix]
    | cons b s =>
      simp only [HasPrefix, Bool.and_eq_true, beq_iff_eq, ih, List.cons_append, List.cons.injEq]
      constructor
      · rintro ⟨rfl, r, rfl⟩
        exact ⟨r, rfl, rfl⟩
      · rintro ⟨r, rfl, rfl⟩
        exact ⟨rfl, r, rfl⟩

theorem split_ne_nil (s : Str) (sep : GoChar) : Split s sep ≠ [] := by
  cases s with
  | nil => simp [Split]
  | cons c cs =>
    unfold Split
    split
    · simp
    · split <;> simp

theorem split_headD (s : Str) (sep : GoChar) :
    (Split s sep).headD [] = s.takeWhile (fun c => c != sep) := by
  induction s with
  | nil => simp [Split]
  | cons c cs ih =>
    unfold Split
    by_cases h : c = sep
    · simp [h]
    · simp only [h, if_false]
      have hne := split_ne_nil cs sep
      cases hs : Split cs sep with
      | nil => exact absurd hs hne
      | cons l ls =>
        rw [hs] at ih
        simp only [List.headD_cons] at ih
        simp [List.takeWhile_cons, h, ← ih]

theorem split_headD_firstLine (part : Str) : (Split part (rune '\n')).headD [] = firstLine part :=
  split_headD part (rune '\n')

/-- What is dropped in front of a character that stays is a suffix ending
in that character. -/
theorem dropWhile_append_keep (p : GoChar → Bool) (xs ys : Str) (y : GoChar) (hy : p y = false) :
    ∃ zs, (xs ++ y :: ys).dropWhile p = zs ++ y :: ys := by
  induction xs with
  | nil => exact ⟨[], by simp [List.dropWhile_cons, hy]⟩
  | cons x xs ih =>
    by_cases hx : p x = true
    · obtain ⟨zs, hzs⟩ := ih
      exact ⟨zs, by simp [List.dropWhile_cons, hx, hzs]⟩
    · exact ⟨x :: xs, by simp [List.dropWhile_cons, hx]⟩

theorem dropWhile_all (p : GoChar → Bool) (xs ys : Str) (h : ∀ c ∈ xs, p c = true) :
    (xs ++ ys).dropWhile p = ys.dropWhile p := by
  induction xs with
  | nil => rfl
  | cons x xs ih =>
    have hx : p x = true := h x (by simp)
    simp only [List.cons_append, List.dropWhile_cons, hx, if_true]
    exact ih (fun c hc => h c (by simp [hc]))

/-- The trimmed text is a middle piece of the text, after leading white space. -/
theorem trimSpace_decompose (s : Str) :
    ∃ lead trail, (∀ c ∈ lead, isSpace c = true) ∧ s = lead ++ TrimSpace s ++ trail := by
  refine ⟨s.takeWhile isSpace, ((s.dropWhile isSpace).reverse.takeWhile isSpace).reverse, ?_, ?_⟩
  · intro c hc
    exact (List.mem_takeWhile_imp hc)
  · have h1 : s = s.takeWhile isSpace ++ s.dropWhile isSpace := (List.takeWhile_append_dropWhile _ _).symm
    have h3 : s.dropWhile isSpace = TrimSpace s
        ++ ((s.dropWhile isSpace).reverse.takeWhile isSpace).reverse := by
      unfold TrimSpace
      rw [← List.reverse_append, List.takeWhile_append_dropWhile, List.reverse_reverse]
    rw [List.append_assoc, ← h3]
    exact h1

/-- A key that neither begins nor ends with white space is a prefix of the
trimmed line exactly when the line is white space, the key, and anything. -/
theorem hasPrefix_trimSpace_iff (line key : Str) (a b : GoChar) (mid : Str)
    (hk : key = a :: mid ++ [b]) (ha : isSpace a = false) (hb : isSpace b = false) :
    HasPrefix (TrimSpace line) key = true ↔
      ∃ indent rest, (∀ c ∈ indent, isSpace c = true) ∧ line = indent ++ key ++ rest := by
  rw [hasPrefix_iff]
  constructor
  · rintro ⟨r, hr⟩
    obtain ⟨lead, trail, hlead, hs⟩ := trimSpace_decompose line
    refine ⟨lead, r ++ trail, hlead, ?_⟩
    rw [hs, hr]
    simp
  · rintro ⟨indent, rest, hind, rfl⟩
    have h1 : (indent ++ key ++ rest).dropWhile isSpace = key ++ rest := by
      rw [List.append_assoc, dropWhile_all _ _ _ hind, hk]
      simp [List.dropWhile_cons, ha]
    have h2 : (key ++ rest).reverse = rest.reverse ++ b :: (a :: mid).reverse := by
      rw [hk]
      simp
    obtain ⟨zs, hzs⟩ := dropWhile_append_keep isSpace rest.reverse (a :: mid).reverse b hb
    refine ⟨zs.reverse, ?_⟩
    unfold TrimSpace
    rw [h1, h2, hzs, hk]
    simp

/-! ## Scenario A (C1) -/

/-- C1, evaluated on the code: in scenario A the assembler holds one path and
no component, so the maps have one iteration order, and `String()` returns the
text below. Under `/items` the method key is `GET` and its operation id is
`?pub`, the third header token (the first tag), not `listItems`. -/
theorem scenarioA_renders_first_tag_as_operationId :
    scenarioA.String scenarioA.operations scenarioA.components
      = lit ("info:\n  title: X\n  version: \"1\"\n\npaths:\n  /items:\n      GET:\n"
          ++ "        operationId: ?pub\n        responses:\n          \"200\":\n"
          ++ "            description: ok\n") := by
  decide

/-! ## A second main directive (C2) -/

theorem createMain_of_mainSet (s : Swagger) (q : Str) (h : s.mainSet = true) :
    s.CreateMain q = (s, some Error.mainAlreadySet) := by
  simp [Swagger.CreateMain, h]

theorem createOperation_mainSet (s : Swagger) (part : Str) :
    (s.CreateOperation part).1.mainSet = s.mainSet := by
  unfold Swagger.CreateOperation
  simp only
  split <;> rfl

theorem createComponents_mainSet (s : Swagger) (part : Str) :
    (s.CreateComponents part).1.mainSet = s.mainSet := by
  unfold Swagger.CreateComponents
  simp only
  split <;> rfl

theorem run_mainSet (s : Swagger) (c : Call) (h : s.mainSet = true) :
    (Call.run s c).mainSet = true := by
  cases c with
  | main part => simp [Call.run, createMain_of_mainSet s part h, h]
  | operation part => simp [Call.run, createOperation_mainSet, h]
  | components part => simp [Call.run, createComponents_mainSet, h]

theorem runCalls_mainSet (s : Swagger) (calls : List Call) (h : s.mainSet = true) :
    (runCalls s calls).mainSet = true := by
  induction calls generalizing s with
  | nil => exact h
  | cons c cs ih => exact ih (Call.run s c) (run_mainSet s c h)

theorem createMain_ok_mainSet (s : Swagger) (p : Str) (h : (s.CreateMain p).2 = none) :
    (s.CreateMain p).1.mainSet = true := by
  unfold Swagger.CreateMain at h ⊢
  split at h
  · simp at h
  · split at h
    · simp at h
    · rename_i h1 h2
      rw [if_neg h1, if_neg h2]

/-- C2: once `CreateMain p` has succeeded, after any sequence of calls of the
three merge methods (successful or failed), `CreateMain q` returns the error
`main section already set` and the state (main, mainSet, operations,
components) it returns is the state it was called on, for every payload `q`. -/
theorem createMain_again_is_duplicate (s : Swagger) (p : Str) (calls : List Call) (q : Str)
    (h : (s.CreateMain p).2 = none) :
    (runCalls (s.CreateMain p).1 calls).CreateMain q
      = (runCalls (s.CreateMain p).1 calls, some Error.mainAlreadySet) :=
  createMain_of_mainSet _ q (runCalls_mainSet _ calls (createMain_ok_mainSet s p h))

/-- Witness of C2: a main payload, then an operation, a component, a failed
operation, and a second main payload that also holds a reserved key. -/
theorem createMain_again_is_duplicate_witness :
    (NewSwagger.CreateMain (lit "info: x")).2 = none ∧
    (runCalls (NewSwagger.CreateMain (lit "info: x")).1
        [Call.operation (lit "GET /a b"), Call.components (lit "schemas\nA: 1"),
          Call.operation (lit "bad")]).CreateMain (lit "paths: y")
      = (runCalls (NewSwagger.CreateMain (lit "info: x")).1
          [Call.operation (lit "GET /a b"), Call.components (lit "schemas\nA: 1"),
            Call.operation (lit "bad")], some Error.mainAlreadySet) :=
  ⟨by decide, createMain_again_is_duplicate NewSwagger (lit "info: x") _ (lit "paths: y")
    (by decide)⟩

/-! ## A bare main directive (C3) -/

/-- C3, evaluated on the code: for the single fragment `swagger:main` followed
by a line break, `validateAndTrimYAML` returns the 12 bytes `swagger:main`, and
`part[len("swagger:main")+1:]` is `part[13:]` on them: a runtime panic, for
every YAML library, validator and iteration order. -/
theorem createSwagger_bare_main_panics (yaml : Str → YamlResult)
    (validateSwagger : Str → Option Error) (rangeOps rangeComps : GoMap → GoMap) :
    createSwagger yaml validateSwagger rangeOps rangeComps [(lit "swagger:main\n")]
      = Outcome.runtimePanic := by
  rfl

/-! ## Reserved keys in the main payload (C4) -/

theorem reservedLine_iff (line : Str) :
    (HasPrefix (TrimSpace line) (lit "components:")
      || HasPrefix (TrimSpace line) (lit "paths:")) = true ↔ ReservedLine line := by
  have hc := hasPrefix_trimSpace_iff line (lit "components:") (rune 'c') (rune ':') (lit "omponents") rfl
    (by decide) (by decide)
  have hp := hasPrefix_trimSpace_iff line (lit "paths:") (rune 'p') (rune ':') (lit "aths") rfl
    (by decide) (by decide)
  rw [Bool.or_eq_true, hc, hp]
  unfold ReservedLine
  constructor
  · rintro (⟨i, r, hi, h⟩ | ⟨i, r, hi, h⟩)
    · exact ⟨i, r, hi, Or.inl h⟩
    · exact ⟨i, r, hi, Or.inr h⟩
  · rintro ⟨i, r, hi, h | h⟩
    · exact Or.inl ⟨i, r, hi, h⟩
    · exact Or.inr ⟨i, r, hi, h⟩

theorem any_reserved_iff (p : Str) :
    (Split p (rune '\n')).any (fun line =>
      HasPrefix (TrimSpace line) (lit "components:")
        || HasPrefix (TrimSpace line) (lit "paths:")) = true
      ↔ ∃ line ∈ Split p (rune '\n'), ReservedLine line := by
  rw [List.any_eq_true]
  constructor
  · rintro ⟨line, hl, h⟩
    exact ⟨line, hl, (reservedLine_iff line).1 h⟩
  · rintro ⟨line, hl, h⟩
    exact ⟨line, hl, (reservedLine_iff line).2 h⟩

theorem topLevelKey_reservedLine (p key : Str) (h : hasTopLevelKey p key = true)
    (hk : key = (lit "components") ∨ key = (lit "paths")) :
    ∃ line ∈ Split p (rune '\n'), ReservedLine line := by
  unfold hasTopLevelKey at h
  rw [List.any_eq_true] at h
  obtain ⟨line, hl, hp⟩ := h
  obtain ⟨r, hr⟩ := (hasPrefix_iff _ _).1 hp
  refine ⟨line, hl, [], r, by simp, ?_⟩
  rcases hk with rfl | rfl
  · exact Or.inl (by simpa using hr)
  · exact Or.inr (by simpa using hr)

/-- C4, the claim as stated fails: the payload below has neither `paths` nor
`components` as a top-level key (`paths:` occurs only as a nested, indented
key), and `CreateMain` on the empty Swagger returns the reserved-key error. -/
theorem createMain_rejects_nested_reserved_key :
    hasTopLevelKey (lit "info:\n  paths: x") (lit "paths") = false ∧
    hasTopLevelKey (lit "info:\n  paths: x") (lit "components") = false ∧
    NewSwagger.mainSet = false ∧
    NewSwagger.CreateMain (lit "info:\n  paths: x") = (NewSwagger, some Error.reservedKey) := by
  decide

/-- C4, amended: on a Swagger whose main is not set, `CreateMain p` returns
the reserved-key error and the unchanged state when some line of `p` is white
space followed by `paths:` or `components:` (a reserved key at any depth of
indentation; in particular when `paths` or `components` is a top-level key),
and otherwise succeeds, storing `p` as main and setting `mainSet`. -/
theorem createMain_reserved_key_at_any_depth (s : Swagger) (p : Str)
    (h : s.mainSet = false) :
    ((∃ line ∈ Split p (rune '\n'), ReservedLine line) →
        s.CreateMain p = (s, some Error.reservedKey)) ∧
    (hasTopLevelKey p (lit "paths") = true ∨ hasTopLevelKey p (lit "components") = true →
        s.CreateMain p = (s, some Error.reservedKey)) ∧
    ((¬ ∃ line ∈ Split p (rune '\n'), ReservedLine line) →
        s.CreateMain p = ({ s with main := p, mainSet := true }, none)) := by
  have hpos : (∃ line ∈ Split p (rune '\n'), ReservedLine line) →
      s.CreateMain p = (s, some Error.reservedKey) := by
    intro hr
    unfold Swagger.CreateMain
    rw [if_neg (by simp [h]), if_pos ((any_reserved_iff p).2 hr)]
  refine ⟨hpos, ?_, ?_⟩
  · rintro (hk | hk)
    · exact hpos (topLevelKey_reservedLine p _ hk (Or.inr rfl))
    · exact hpos (topLevelKey_reservedLine p _ hk (Or.inl rfl))
  · intro hr
    unfold Swagger.CreateMain
    rw [if_neg (by simp [h]), if_neg (fun hc => hr ((any_reserved_iff p).1 hc))]

/-- Witness of C4 (amended): the empty Swagger and a payload with a nested
`paths:` key. -/
theorem createMain_reserved_key_at_any_depth_witness :
    NewSwagger.mainSet = false ∧
    (∃ line ∈ Split (lit "info:\n  paths: x") (rune '\n'), ReservedLine line) ∧
    NewSwagger.CreateMain (lit "info:\n  paths: x") = (NewSwagger, some Error.reservedKey) :=
  have hr : ∃ line ∈ Split (lit "info:\n  paths: x") (rune '\n'), ReservedLine line :=
    ⟨lit "  paths: x", by decide, lit "  ", lit " x", by decide, Or.inr (by decide)⟩
  ⟨rfl, hr, (createMain_reserved_key_at_any_depth NewSwagger (lit "info:\n  paths: x") rfl).1 hr⟩

/-! ## The header of an operation (C5, C6) -/

/-- C5: `CreateOperation part` returns an error exactly when the first line of
`part` splits on white space into fewer than three tokens, and when it returns
an error the state it returns is the state it was called on. -/
theorem createOperation_error_iff_short_header (s : Swagger) (part : Str) :
    ((s.CreateOperation part).2 ≠ none ↔ (Fields (firstLine part)).length < 3) ∧
    ((s.CreateOperation part).2 ≠ none → (s.CreateOperation part).1 = s) := by
  unfold Swagger.CreateOperation
  simp only [split_headD_firstLine]
  rcases hf : Fields (firstLine part) with _ | ⟨a, _ | ⟨b, _ | ⟨c, t⟩⟩⟩
  · simp
  · simp
  · simp
  · simp

/-- C6, evaluated on the code: when the first fragment is the operation
directive with no header token and no payload, `validateAndTrimYAML` returns
the 17 bytes `swagger:operation` and `part[18:]` on them is a runtime panic,
whatever follows in the list; no error is returned. -/
theorem createSwagger_bare_operation_panics (yaml : Str → YamlResult)
    (validateSwagger : Str → Option Error) (rangeOps rangeComps : GoMap → GoMap)
    (rest : List Str) :
    createSwagger yaml validateSwagger rangeOps rangeComps ((lit "swagger:operation\n") :: rest)
      = Outcome.runtimePanic := by
  rfl

/-! ## Lines of a text -/

theorem split_cons_sep (rest : Str) (sep : GoChar) :
    Split (sep :: rest) sep = [] :: Split rest sep := by
  simp [Split]

theorem split_cons_ne (c : GoChar) (cs : Str) (sep : GoChar) (h : c ≠ sep) :
    Split (c :: cs) sep = (c :: (Split cs sep).headD []) :: (Split cs sep).tail := by
  have hne := split_ne_nil cs sep
  cases hs : Split cs sep with
  | nil => exact absurd hs hne
  | cons l ls => simp [Split, h, hs]

theorem split_append_sep (l rest : Str) (sep : GoChar) (h : sep ∉ l) :
    Split (l ++ sep :: rest) sep = l :: Split rest sep := by
  induction l with
  | nil => exact split_cons_sep rest sep
  | cons c l ih =>
    have hc : c ≠ sep := fun e => h (by simp [e])
    have hl : sep ∉ l := fun e => h (by simp [e])
    rw [List.cons_append, split_cons_ne c _ sep hc, ih hl]
    rfl

theorem mem_split_no_sep (s : Str) (sep : GoChar) : ∀ l ∈ Split s sep, sep ∉ l := by
  induction s with
  | nil => simp [Split]
  | cons c cs ih =>
    by_cases hc : c = sep
    · subst hc
      rw [split_cons_sep]
      intro l hl
      rcases List.mem_cons.1 hl with rfl | hl
      · simp
      · exact ih l hl
    · rw [split_cons_ne c cs sep hc]
      have hne := split_ne_nil cs sep
      cases hs : Split cs sep with
      | nil => exact absurd hs hne
      | cons l0 ls =>
        rw [hs] at ih
        intro l hl
        simp only [List.headD_cons, List.tail_cons, List.mem_cons] at hl
        rcases hl with rfl | hl
        · intro hmem
          rcases List.mem_cons.1 hmem with e | e
          · exact hc e.symm
          · exact ih l0 (by simp) e
        · exact ih l (by simp [hl])

theorem unlines_cons (l : Str) (ls : List Str) :
    unlines (l :: ls) = l ++ (rune '\n') :: unlines ls := by
  simp [unlines]

theorem unlines_append (a b : List Str) : unlines (a ++ b) = unlines a ++ unlines b := by
  induction a with
  | nil => rfl
  | cons l a ih => simp [unlines, ih]

theorem split_unlines (ls : List Str) (h : ∀ l ∈ ls, (rune '\n') ∉ l) :
    Split (unlines ls) (rune '\n') = ls ++ [[]] := by
  induction ls with
  | nil => rfl
  | cons l ls ih =>
    have h1 : (rune '\n') ∉ l := h l (by simp)
    have h2 : ∀ l1 ∈ ls, (rune '\n') ∉ l1 := fun l1 hl1 => h l1 (by simp [hl1])
    rw [unlines_cons, split_append_sep l _ (rune '\n') h1, ih h2]
    rfl

/-! ## Blank lines, indentation and tokens -/

theorem trimSpace_eq_nil_iff (s : Str) : TrimSpace s = [] ↔ ∀ c ∈ s, isSpace c = true := by
  unfold TrimSpace
  rw [List.reverse_eq_nil_iff, List.dropWhile_eq_nil_iff]
  constructor
  · intro h c hc
    have hs : s = s.takeWhile isSpace ++ s.dropWhile isSpace :=
      (List.takeWhile_append_dropWhile _ _).symm
    rw [hs] at hc
    rcases List.mem_append.1 hc with h1 | h1
    · exact List.mem_takeWhile_imp h1
    · exact h c (List.mem_reverse.2 h1)
  · intro h c hc
    exact h c ((List.dropWhile_sublist isSpace).subset (List.mem_reverse.1 hc))

theorem nonBlank_iff (s : Str) : nonBlank s = true ↔ ∃ c ∈ s, isSpace c = false := by
  unfold nonBlank
  rw [bne_iff_ne, Ne, trimSpace_eq_nil_iff]
  push_neg
  simp

theorem nonBlank_nil : nonBlank [] = false := by decide

theorem mem_replaceAll (s new : Str) (old c : GoChar) :
    c ∈ ReplaceAll s old new ↔ (c ∈ s ∧ c ≠ old) ∨ (old ∈ s ∧ c ∈ new) := by
  induction s with
  | nil => simp [ReplaceAll]
  | cons x xs ih =>
    by_cases hx : x = old
    · subst hx
      simp only [ReplaceAll, if_true, List.mem_append, ih, List.mem_cons, true_or, true_and]
      constructor
      · rintro (h | h | h)
        · exact Or.inr h
        · exact Or.inl ⟨Or.inr h.1, h.2⟩
        · exact Or.inr h.2
      · rintro (⟨h1 | h1, h2⟩ | h)
        · exact absurd h1 h2
        · exact Or.inr (Or.inl ⟨h1, h2⟩)
        · exact Or.inl h
    · simp only [ReplaceAll, hx, if_false, List.mem_cons, ih]
      constructor
      · rintro (h | h | h)
        · exact Or.inl ⟨Or.inl h, h ▸ hx⟩
        · exact Or.inl ⟨Or.inr h.1, h.2⟩
        · exact Or.inr ⟨Or.inr h.1, h.2⟩
      · rintro (⟨h1 | h1, h2⟩ | ⟨h1 | h1, h2⟩)
        · exact Or.inl h1
        · exact Or.inr (Or.inl ⟨h1, h2⟩)
        · exact absurd h1.symm hx
        · exact Or.inr (Or.inr ⟨h1, h2⟩)

/-- Replacing tabs by spaces keeps a line free of line breaks. -/
theorem replaceAll_no_break (line : Str) (h : (rune '\n') ∉ line) :
    (rune '\n') ∉ ReplaceAll line (rune '\t') (lit "    ") := by
  intro hc
  rcases (mem_replaceAll _ _ _ _).1 hc with h1 | h1
  · exact h h1.1
  · exact absurd h1.2 (by decide)

/-- Replacing tabs by spaces and indenting by spaces keeps a line blank or
not blank. -/
theorem nonBlank_indent_replaceAll (indent line : Str) (hi : ∀ c ∈ indent, isSpace c = true) :
    nonBlank (indent ++ ReplaceAll line (rune '\t') (lit "    ")) = nonBlank line := by
  rw [Bool.eq_iff_iff, nonBlank_iff, nonBlank_iff]
  constructor
  · rintro ⟨c, hc, hs⟩
    rcases List.mem_append.1 hc with h1 | h1
    · rw [hi c h1] at hs
      exact absurd hs (by simp)
    · rcases (mem_replaceAll _ _ _ _).1 h1 with h2 | h2
      · exact ⟨c, h2.1, hs⟩
      · have : c = (rune ' ') := by simpa using h2.2
        subst this
        exact absurd hs (by decide)
  · rintro ⟨c, hc, hs⟩
    refine ⟨c, List.mem_append.2 (Or.inr ((mem_replaceAll _ _ _ _).2 (Or.inl ⟨hc, ?_⟩))), hs⟩
    rintro rfl
    exact absurd hs (by decide)

theorem fields_cons_space (c : GoChar) (cs : Str) (h : isSpace c = true) :
    Fields (c :: cs) = Fields cs := by
  simp [Fields, h]

theorem fields_single (c : GoChar) (h : isSpace c = false) : Fields [c] = [[c]] := by
  simp [Fields, h]

theorem fields_cons_before_space (c d : GoChar) (ds : Str) (hc : isSpace c = false)
    (hd : isSpace d = true) : Fields (c :: d :: ds) = [c] :: Fields (d :: ds) := by
  conv_lhs => unfold Fields
  simp [hc, hd]

theorem fields_ne_nil (d : GoChar) (ds : Str) (hd : isSpace d = false) : Fields (d :: ds) ≠ [] := by
  unfold Fields
  simp only [hd, Bool.false_eq_true, if_false]
  cases ds with
  | nil => simp
  | cons e es =>
    simp only
    split
    · simp
    · split <;> simp

theorem fields_cons_before_token (c d : GoChar) (ds : Str) (hc : isSpace c = false)
    (hd : isSpace d = false) :
    Fields (c :: d :: ds) = (c :: (Fields (d :: ds)).headD []) :: (Fields (d :: ds)).tail := by
  have hne := fields_ne_nil d ds hd
  conv_lhs => unfold Fields
  simp only [hc, hd, Bool.false_eq_true, if_false]
  cases hs : Fields (d :: ds) with
  | nil => exact absurd hs hne
  | cons t ts => simp

/-- Every field is a token. -/
theorem fields_tokens (s : Str) : ∀ t ∈ Fields s, IsToken t := by
  induction s with
  | nil => simp [Fields]
  | cons c cs ih =>
    by_cases hc : isSpace c = true
    · rw [fields_cons_space c cs hc]
      exact ih
    · have hc : isSpace c = false := by simpa using hc
      cases cs with
      | nil =>
        rw [fields_single c hc]
        intro t ht
        have : t = [c] := by simpa using ht
        subst this
        exact ⟨by simp, by simpa using hc⟩
      | cons d ds =>
        by_cases hd : isSpace d = true
        · rw [fields_cons_before_space c d ds hc hd]
          intro t ht
          rcases List.mem_cons.1 ht with rfl | ht
          · exact ⟨by simp, by simpa using hc⟩
          · exact ih t ht
        · have hd : isSpace d = false := by simpa using hd
          rw [fields_cons_before_token c d ds hc hd]
          have hne := fields_ne_nil d ds hd
          cases hs : Fields (d :: ds) with
          | nil => exact absurd hs hne
          | cons t0 ts =>
            rw [hs] at ih
            intro t ht
            simp only [List.headD_cons, List.tail_cons, List.mem_cons] at ht
            rcases ht with rfl | ht
            · have h0 := ih t0 (by simp)
              refine ⟨by simp, ?_⟩
              intro x hx
              rcases List.mem_cons.1 hx with rfl | hx
              · exact hc
              · exact h0.2 x hx
            · exact ih t (by simp [ht])

theorem token_no_break (t : Str) (h : IsToken t) : (rune '\n') ∉ t := by
  intro hc
  exact absurd (h.2 _ hc) (by decide)

theorem token_head (t : Str) (h : IsToken t) : ∃ c r, t = c :: r ∧ isSpace c = false := by
  cases t with
  | nil => exact absurd rfl h.1
  | cons c r => exact ⟨c, r, rfl, h.2 c (by simp)⟩

/-! ## The text written by `String`, as lines -/

theorem indentLines_eq_unlines (indent : Str) (lines : List Str) :
    indentLines indent lines
      = unlines (lines.map (fun line => indent ++ ReplaceAll line (rune '\t') (lit "    "))) := by
  induction lines with
  | nil => rfl
  | cons l ls ih => simp [indentLines, unlines, ih]

theorem foldr_eq_unlines (ls : List Str) :
    ls.foldr (fun line acc => (lit "    ") ++ line ++ (lit "\n") ++ acc) []
      = unlines (ls.map (fun line => (lit "    ") ++ line)) := by
  induction ls with
  | nil => rfl
  | cons l ls ih => simp only [List.foldr_cons, List.map_cons, unlines, ih]

theorem writeContent_eq (content : Str) : writeContent content = unlines (contentLines content) := by
  unfold writeContent contentLines
  exact foldr_eq_unlines _

theorem writeEntry_eq (v : Str × Str) : writeEntry v = unlines (entryLines v) := by
  unfold writeEntry entryLines
  rw [writeContent_eq, unlines_cons]
  simp

theorem writeEntries_eq (l : List (Str × Str)) :
    writeEntries l = unlines (l.flatMap entryLines) := by
  induction l with
  | nil => rfl
  | cons v l ih => rw [writeEntries, writeEntry_eq, ih, List.flatMap_cons, unlines_append]

theorem contentLines_no_break (content : Str) : ∀ l ∈ contentLines content, (rune '\n') ∉ l := by
  intro l hl
  unfold contentLines at hl
  obtain ⟨l0, h0, rfl⟩ := List.mem_map.1 hl
  have h1 := mem_split_no_sep content (rune '\n') l0 (List.mem_filter.1 h0).1
  intro hc
  rcases List.mem_append.1 hc with h2 | h2
  · exact absurd h2 (by decide)
  · exact h1 h2

theorem entryLines_no_break (v : Str × Str) (hk : (rune '\n') ∉ v.1) :
    ∀ l ∈ entryLines v, (rune '\n') ∉ l := by
  intro l hl
  unfold entryLines at hl
  rcases List.mem_cons.1 hl with rfl | hl
  · intro hc
    rcases List.mem_append.1 hc with h2 | h2
    · rcases List.mem_append.1 h2 with h3 | h3
      · exact absurd h3 (by decide)
      · exact hk h3
    · exact absurd h2 (by decide)
  · exact contentLines_no_break v.2 l hl

/-- The content lines of a text given by its lines. -/
theorem contentLines_unlines (ls : List Str) (h : ∀ l ∈ ls, (rune '\n') ∉ l) :
    contentLines (unlines ls) = (ls.filter nonBlank).map (fun line => (lit "    ") ++ line) := by
  unfold contentLines
  rw [split_unlines ls h, List.filter_append]
  simp [nonBlank_nil]

/-! ## The maps -/

theorem mapLookup_eq_none_iff (m : GoMap) (k : Str) : mapLookup m k = none ↔ k ∉ keysOf m := by
  induction m with
  | nil => simp [mapLookup, keysOf]
  | cons e m ih =>
    obtain ⟨k1, v1⟩ := e
    by_cases h : k1 = k
    · subst h
      simp [mapLookup, keysOf]
    · have h2 : ¬ k = k1 := fun e => h e.symm
      simp only [mapLookup, h, if_false, ih]
      simp [keysOf, h2]

theorem mapLookup_mapStore_same (m : GoMap) (k v : Str) : mapLookup (mapStore m k v) k = some v := by
  induction m with
  | nil => simp [mapStore, mapLookup]
  | cons e m ih =>
    obtain ⟨k1, v1⟩ := e
    by_cases h : k1 = k
    · simp [mapStore, mapLookup, h]
    · simp [mapStore, mapLookup, h, ih]

theorem mapLookup_mapStore_other (m : GoMap) (k v k2 : Str) (hk : k2 ≠ k) :
    mapLookup (mapStore m k v) k2 = mapLookup m k2 := by
  induction m with
  | nil =>
    have : ¬ k = k2 := fun e => hk e.symm
    simp [mapStore, mapLookup, this]
  | cons e m ih =>
    obtain ⟨k1, v1⟩ := e
    by_cases h : k1 = k
    · subst h
      have : ¬ k1 = k2 := fun e => hk e.symm
      simp [mapStore, mapLookup, this]
    · by_cases h2 : k1 = k2
      · subst h2
        simp [mapStore, mapLookup, h]
      · simp [mapStore, mapLookup, h, h2, ih]

theorem keysOf_mapStore_mem (m : GoMap) (k v : Str) (h : k ∈ keysOf m) :
    keysOf (mapStore m k v) = keysOf m := by
  induction m with
  | nil => simp [keysOf] at h
  | cons e m ih =>
    obtain ⟨k1, v1⟩ := e
    by_cases h1 : k1 = k
    · simp [mapStore, keysOf, h1]
    · have hm : k ∈ keysOf m := by
        have : k = k1 ∨ k ∈ keysOf m := by simpa [keysOf] using h
        rcases this with e | e
        · exact absurd e.symm h1
        · exact e
      have := ih hm
      simp only [keysOf] at this ⊢
      simp [mapStore, h1, this]

theorem keysOf_mapStore_new (m : GoMap) (k v : Str) (h : k ∉ keysOf m) :
    keysOf (mapStore m k v) = keysOf m ++ [k] := by
  induction m with
  | nil => simp [mapStore, keysOf]
  | cons e m ih =>
    obtain ⟨k1, v1⟩ := e
    have h1 : ¬ k1 = k := fun e => h (by simp [keysOf, e])
    have hm : k ∉ keysOf m := fun e => h (by
      simp only [keysOf] at e ⊢
      simp [e])
    have := ih hm
    simp only [keysOf] at this ⊢
    simp [mapStore, h1, this]

theorem mergeContent_eq_mapStore (m : GoMap) (k c : Str) :
    ∃ v, mergeContent m k c = mapStore m k v := by
  unfold mergeContent
  cases mapLookup m k with
  | none => exact ⟨_, rfl⟩
  | some e => exact ⟨_, rfl⟩

theorem mem_keysOf_mergeContent (m : GoMap) (k c x : Str) :
    x ∈ keysOf (mergeContent m k c) ↔ x ∈ keysOf m ∨ x = k := by
  obtain ⟨v, hv⟩ := mergeContent_eq_mapStore m k c
  rw [hv]
  by_cases h : k ∈ keysOf m
  · rw [keysOf_mapStore_mem m k v h]
    constructor
    · exact Or.inl
    · rintro (h1 | rfl)
      · exact h1
      · exact h
  · rw [keysOf_mapStore_new m k v h]
    simp

theorem nodup_keysOf_mergeContent (m : GoMap) (k c : Str) (h : (keysOf m).Nodup) :
    (keysOf (mergeContent m k c)).Nodup := by
  obtain ⟨v, hv⟩ := mergeContent_eq_mapStore m k c
  rw [hv]
  by_cases hk : k ∈ keysOf m
  · rw [keysOf_mapStore_mem m k v hk]
    exact h
  · rw [keysOf_mapStore_new m k v hk]
    exact List.Nodup.append h (by simp) (by simpa using hk)

theorem mergeContent_ne_nil (m : GoMap) (k c : Str) : mergeContent m k c ≠ [] := by
  intro h
  have : k ∈ keysOf (mergeContent m k c) := (mem_keysOf_mergeContent m k c k).2 (Or.inr rfl)
  rw [h] at this
  simp [keysOf] at this

/-! ## The merge methods, by cases of the header -/

theorem createOperation_ok (s : Swagger) (part m path id : Str) (tags : List Str)
    (h : headerOf part = m :: path :: id :: tags) :
    s.CreateOperation part
      = ({ s with operations :=
            mergeContent s.operations path (operationContent m id (payloadOf part)) }, none) := by
  unfold headerOf at h
  unfold Swagger.CreateOperation
  simp only [split_headD_firstLine, h]
  rfl

theorem createOperation_err (s : Swagger) (part : Str) (h : (headerOf part).length < 3) :
    s.CreateOperation part = (s, some (Error.invalidOperationPart part)) := by
  unfold headerOf at h
  unfold Swagger.CreateOperation
  simp only [split_headD_firstLine]
  rcases hf : Fields (firstLine part) with _ | ⟨a, _ | ⟨b, _ | ⟨c, t⟩⟩⟩
  · rfl
  · rfl
  · rfl
  · rw [hf] at h
    simp at h
    omega

theorem createComponents_ok (s : Swagger) (part componentType : Str) (rest : List Str)
    (h : headerOf part = componentType :: rest) :
    s.CreateComponents part
      = ({ s with components :=
            mergeContent s.components componentType (indentLines (lit "  ") (payloadOf part)) },
          none) := by
  unfold headerOf at h
  unfold Swagger.CreateComponents
  simp only [split_headD_firstLine, h]
  rfl

theorem createComponents_err (s : Swagger) (part : Str) (h : headerOf part = []) :
    s.CreateComponents part = (s, some (Error.invalidComponentPart part)) := by
  unfold headerOf at h
  unfold Swagger.CreateComponents
  simp only [split_headD_firstLine, h]

/-! ## The order of the keys and the sort -/

theorem char_eq_of_toNat_eq (x y : Char) (h : x.toNat = y.toNat) : x = y := by
  rw [← Char.ofNat_toNat x, ← Char.ofNat_toNat y, h]

theorem compareBytes_eq_zero (a b : List Nat) (h : compareBytes a b = 0) : a = b := by
  induction a generalizing b with
  | nil =>
    cases b with
    | nil => rfl
    | cons y b1 => simp [compareBytes] at h
  | cons x a1 ih =>
    cases b with
    | nil => simp [compareBytes] at h
    | cons y b1 =>
      simp only [compareBytes] at h
      split_ifs at h with h1 h2
      · omega
      · have hxy : x = y := by omega
        rw [hxy, ih b1 h]

theorem compareBytes_total (a b : List Nat) : compareBytes a b ≤ 0 ∨ compareBytes b a ≤ 0 := by
  induction a generalizing b with
  | nil => cases b <;> simp [compareBytes]
  | cons x a1 ih =>
    cases b with
    | nil => simp [compareBytes]
    | cons y b1 =>
      simp only [compareBytes]
      split_ifs with h1 h2 h3 <;> first | omega | exact ih b1

theorem compareBytes_trans (a b c : List Nat) (h1 : compareBytes a b ≤ 0)
    (h2 : compareBytes b c ≤ 0) : compareBytes a c ≤ 0 := by
  induction a generalizing b c with
  | nil => cases c <;> simp [compareBytes]
  | cons x a1 ih =>
    cases b with
    | nil => simp [compareBytes] at h1
    | cons y b1 =>
      cases c with
      | nil => simp [compareBytes] at h2
      | cons z c1 =>
        simp only [compareBytes] at h1 h2 ⊢
        split_ifs at h1 h2 ⊢ <;> first | omega | exact ih b1 c1 h1 h2

/-- UTF-8 is a prefix code: an encoded character in front of a byte sequence
determines the character and the rest. -/
theorem utf8EncodeChar_append_inj (x y : Char) (a b : List Nat)
    (h : utf8EncodeChar x ++ a = utf8EncodeChar y ++ b) : x = y ∧ a = b := by
  have key : x.toNat = y.toNat ∧ a = b := by
    unfold utf8EncodeChar at h
    split_ifs at h <;>
      simp only [List.cons_append, List.nil_append, List.cons.injEq] at h <;>
      first
        | (exfalso; omega)
        | (refine ⟨?_, ?_⟩
           · omega
           · tauto)
  exact ⟨char_eq_of_toNat_eq x y key.1, key.2⟩

theorem utf8EncodeChar_length_pos (c : Char) : 0 < (utf8EncodeChar c).length := by
  unfold utf8EncodeChar
  split_ifs <;> simp

theorem bytesOf_length_pos (u : GoChar) : 0 < (bytesOf u).length := by
  cases u with
  | rune c => exact utf8EncodeChar_length_pos c
  | stray b => simp [bytesOf]

/-- The first byte of an encoded character is no continuation byte. -/
theorem utf8EncodeChar_ne_stray (x : Char) (k : Fin 64) (a b : List Nat)
    (h : utf8EncodeChar x ++ a = (0x80 + k.val) :: b) : False := by
  have hk := k.isLt
  unfold utf8EncodeChar at h
  split_ifs at h <;>
    simp only [List.cons_append, List.nil_append, List.cons.injEq] at h <;>
    omega

/-- The bytes of a Go string are a prefix code over its elements: the bytes of
an element in front of a byte sequence determine the element and the rest. -/
theorem bytesOf_append_inj (x y : GoChar) (a b : List Nat)
    (h : bytesOf x ++ a = bytesOf y ++ b) : x = y ∧ a = b := by
  cases x with
  | rune c =>
    cases y with
    | rune d =>
      obtain ⟨h1, h2⟩ := utf8EncodeChar_append_inj c d a b h
      exact ⟨by rw [h1], h2⟩
    | stray k => exact absurd (utf8EncodeChar_ne_stray c k a b h) id
  | stray k =>
    cases y with
    | rune d => exact absurd (utf8EncodeChar_ne_stray d k b a h.symm) id
    | stray m =>
      simp only [bytesOf, List.cons_append, List.nil_append, List.cons.injEq] at h
      exact ⟨by rw [Fin.ext (by omega : k.val = m.val)], h.2⟩

theorem utf8Bytes_injective (a b : Str) (h : utf8Bytes a = utf8Bytes b) : a = b := by
  induction a generalizing b with
  | nil =>
    cases b with
    | nil => rfl
    | cons y b1 =>
      exfalso
      have hl := congrArg List.length h
      simp only [utf8Bytes, List.length_nil, List.length_append] at hl
      have := bytesOf_length_pos y
      omega
  | cons x a1 ih =>
    cases b with
    | nil =>
      exfalso
      have hl := congrArg List.length h
      simp only [utf8Bytes, List.length_nil, List.length_append] at hl
      have := bytesOf_length_pos x
      omega
    | cons y b1 =>
      simp only [utf8Bytes] at h
      obtain ⟨hxy, hab⟩ := bytesOf_append_inj x y _ _ h
      rw [hxy, ih b1 hab]

theorem compare_eq_zero (a b : Str) (h : Compare a b = 0) : a = b :=
  utf8Bytes_injective a b (compareBytes_eq_zero _ _ h)

theorem compare_total (a b : Str) : Compare a b ≤ 0 ∨ Compare b a ≤ 0 :=
  compareBytes_total _ _

theorem compare_trans (a b c : Str) (h1 : Compare a b ≤ 0) (h2 : Compare b c ≤ 0) :
    Compare a c ≤ 0 :=
  compareBytes_trans _ _ _ h1 h2

theorem sortFunc_eq_insertionSort {α : Type} (cmp : α → α → Int) (l : List α) :
    SortFunc cmp l = List.insertionSort (fun a b => cmp a b ≤ 0) l := by
  have hins : ∀ (a : α) (l : List α),
      insertSorted cmp a l = List.orderedInsert (fun a b => cmp a b ≤ 0) a l := by
    intro a l
    induction l with
    | nil => rfl
    | cons b l ih => simp [insertSorted, List.orderedInsert, ih]
  induction l with
  | nil => rfl
  | cons a l ih =>
    show insertSorted cmp a (SortFunc cmp l) = _
    rw [hins, ih]
    rfl

theorem sortFunc_perm {α : Type} (cmp : α → α → Int) (l : List α) : (SortFunc cmp l).Perm l := by
  rw [sortFunc_eq_insertionSort]
  exact List.perm_insertionSort _ l

/-- The entries sorted by key are in ascending order of the keys. -/
theorem sortFunc_sorted (l : GoMap) :
    (keysOf (SortFunc (fun a b => Compare a.1 b.1) l)).Pairwise (fun a b => Compare a b ≤ 0) := by
  rw [sortFunc_eq_insertionSort]
  haveI : IsTotal (Str × Str) (fun a b => Compare a.1 b.1 ≤ 0) :=
    ⟨fun a b => compare_total a.1 b.1⟩
  haveI : IsTrans (Str × Str) (fun a b => Compare a.1 b.1 ≤ 0) :=
    ⟨fun a b c => compare_trans a.1 b.1 c.1⟩
  have h := List.sorted_insertionSort (fun a b : Str × Str => Compare a.1 b.1 ≤ 0) l
  unfold keysOf
  rw [List.pairwise_map]
  exact h

/-- The sorted keys of a map are strictly ascending. -/
theorem sortFunc_strict (l : GoMap) (hn : (keysOf l).Nodup) :
    (keysOf (SortFunc (fun a b => Compare a.1 b.1) l)).Pairwise (fun a b => Compare a b < 0) := by
  have hp : (keysOf (SortFunc (fun a b => Compare a.1 b.1) l)).Perm (keysOf l) :=
    (sortFunc_perm _ l).map _
  have hn2 : (keysOf (SortFunc (fun a b => Compare a.1 b.1) l)).Pairwise (fun a b => a ≠ b) :=
    hp.nodup_iff.2 hn
  refine ((sortFunc_sorted l).and hn2).imp ?_
  rintro a b ⟨h1, h2⟩
  rcases lt_or_eq_of_le h1 with h | h
  · exact h
  · exact absurd (compare_eq_zero a b h) h2

/-! ## States reached by `CreateOperation` calls -/

theorem header_cases (part : Str) :
    (∃ m path id tags, headerOf part = m :: path :: id :: tags ∧ IsToken m ∧ IsToken path
        ∧ IsToken id) ∨ (headerOf part).length < 3 := by
  have htok : ∀ t ∈ headerOf part, IsToken t := fields_tokens (firstLine part)
  rcases hf : headerOf part with _ | ⟨a, _ | ⟨b, _ | ⟨c, t⟩⟩⟩
  · right; simp
  · right; simp
  · right; simp
  · left
    rw [hf] at htok
    exact ⟨a, b, c, t, rfl, htok a (by simp), htok b (by simp), htok c (by simp)⟩

theorem pathsOf_cons_ok (part : Str) (parts : List Str) (m path id : Str) (tags : List Str)
    (h : headerOf part = m :: path :: id :: tags) :
    pathsOf (part :: parts) = path :: pathsOf parts := by
  simp [pathsOf, List.filterMap_cons, h]

theorem pathsOf_cons_err (part : Str) (parts : List Str) (h : (headerOf part).length < 3) :
    pathsOf (part :: parts) = pathsOf parts := by
  rcases hf : headerOf part with _ | ⟨a, _ | ⟨b, _ | ⟨c, t⟩⟩⟩
  · simp [pathsOf, List.filterMap_cons, hf]
  · simp [pathsOf, List.filterMap_cons, hf]
  · simp [pathsOf, List.filterMap_cons, hf]
  · rw [hf] at h
    simp at h
    omega

theorem runCalls_cons (s : Swagger) (c : Call) (calls : List Call) :
    runCalls s (c :: calls) = runCalls (Call.run s c) calls := rfl

theorem runCalls_append (s : Swagger) (a b : List Call) :
    runCalls s (a ++ b) = runCalls (runCalls s a) b := by
  simp [runCalls, List.foldl_append]

/-- What a sequence of `CreateOperation` calls does to a state. -/
theorem runOperations_invariant (parts : List Str) (s : Swagger) :
    (runCalls s (parts.map Call.operation)).main = s.main ∧
    (runCalls s (parts.map Call.operation)).mainSet = s.mainSet ∧
    (runCalls s (parts.map Call.operation)).components = s.components ∧
    (∀ x, x ∈ keysOf (runCalls s (parts.map Call.operation)).operations
        ↔ x ∈ keysOf s.operations ∨ x ∈ pathsOf parts) ∧
    ((keysOf s.operations).Nodup →
        (keysOf (runCalls s (parts.map Call.operation)).operations).Nodup) ∧
    ((∀ k ∈ keysOf s.operations, IsToken k) →
        ∀ k ∈ keysOf (runCalls s (parts.map Call.operation)).operations, IsToken k) := by
  induction parts generalizing s with
  | nil => simp [runCalls, pathsOf]
  | cons part parts ih =>
    rw [List.map_cons, runCalls_cons]
    rcases header_cases part with ⟨m, path, id, tags, hh, _, hpath, _⟩ | herr
    · have hrun : Call.run s (Call.operation part)
          = { s with operations :=
                mergeContent s.operations path (operationContent m id (payloadOf part)) } := by
        simp [Call.run, createOperation_ok s part m path id tags hh]
      obtain ⟨i1, i2, i3, i4, i5, i6⟩ := ih (Call.run s (Call.operation part))
      rw [hrun] at i1 i2 i3 i4 i5 i6 ⊢
      refine ⟨i1, i2, i3, ?_, ?_, ?_⟩
      · intro x
        rw [i4 x, pathsOf_cons_ok part parts m path id tags hh]
        simp only [mem_keysOf_mergeContent, List.mem_cons]
        tauto
      · intro hn
        exact i5 (nodup_keysOf_mergeContent _ _ _ hn)
      · intro ht
        refine i6 ?_
        intro k hk
        rcases (mem_keysOf_mergeContent _ _ _ _).1 hk with h1 | h1
        · exact ht k h1
        · exact h1 ▸ hpath
    · have hrun : Call.run s (Call.operation part) = s := by
        simp [Call.run, createOperation_err s part herr]
      rw [hrun, pathsOf_cons_err part parts herr]
      exact ih s

/-! ## The rendered text, section by section -/

/-- `String`, with each section written as lines. -/
theorem string_eq (s : Swagger) (opsIter compsIter : GoMap) :
    s.String opsIter compsIter
      = s.main
        ++ (if s.operations = [] then []
            else unlines ([] :: (lit "paths:")
              :: (SortFunc (fun a b => Compare a.1 b.1) opsIter).flatMap entryLines))
        ++ (if s.components = [] then []
            else unlines ((lit "components:") :: compsIter.flatMap entryLines)) := by
  unfold Swagger.String
  congr 1
  · congr 1
    by_cases h : s.operations = []
    · simp [h]
    · have hl : s.operations.length > 0 := List.length_pos.2 h
      rw [if_pos hl, if_neg h, writeEntries_eq, unlines_cons, unlines_cons]
      rfl
  · by_cases h : s.components = []
    · simp [h]
    · have hl : s.components.length > 0 := List.length_pos.2 h
      rw [if_pos hl, if_neg h, writeEntries_eq, unlines_cons]
      rfl

theorem flatMap_entryLines_no_break (l : GoMap) (h : ∀ k ∈ keysOf l, (rune '\n') ∉ k) :
    ∀ x ∈ l.flatMap entryLines, (rune '\n') ∉ x := by
  intro x hx
  obtain ⟨v, hv, hxv⟩ := List.mem_flatMap.1 hx
  exact entryLines_no_break v (h v.1 (List.mem_map_of_mem _ hv)) x hxv

theorem filter_flatMap_eq {α β : Type} (l : List α) (f : α → List β) (p : β → Bool) :
    (l.flatMap f).filter p = l.flatMap (fun a => (f a).filter p) := by
  induction l with
  | nil => rfl
  | cons a l ih => simp [List.flatMap_cons, List.filter_append, ih]

theorem isPathKeyLine_key (k : Str) (hk : IsToken k) :
    isPathKeyLine ((lit "  ") ++ k ++ (lit ":")) = true := by
  obtain ⟨c, r, rfl, hc⟩ := token_head k hk
  have hne : c ≠ (rune ' ') := by
    rintro rfl
    exact absurd hc (by decide)
  simp [isPathKeyLine, indentedExactly, hne]

theorem isPathKeyLine_content (content : Str) :
    ∀ l ∈ contentLines content, isPathKeyLine l = false := by
  intro l hl
  unfold contentLines at hl
  obtain ⟨l0, _, rfl⟩ := List.mem_map.1 hl
  rfl

theorem filter_pathKey_entryLines (v : Str × Str) (hk : IsToken v.1) :
    (entryLines v).filter isPathKeyLine = [(lit "  ") ++ v.1 ++ (lit ":")] := by
  unfold entryLines
  rw [List.filter_cons, if_pos (isPathKeyLine_key v.1 hk)]
  congr 1
  exact List.filter_eq_nil_iff.2 (fun l hl => by simp [isPathKeyLine_content v.2 l hl])

theorem filter_pathKey_entries (l : GoMap) (h : ∀ k ∈ keysOf l, IsToken k) :
    (l.flatMap entryLines).filter isPathKeyLine
      = (keysOf l).map (fun path => (lit "  ") ++ path ++ (lit ":")) := by
  induction l with
  | nil => rfl
  | cons v l ih =>
    have hv : IsToken v.1 := h v.1 (by simp [keysOf])
    have hl : ∀ k ∈ keysOf l, IsToken k := fun k hk => h k (by
      simp only [keysOf] at hk ⊢
      simp [hk])
    rw [List.flatMap_cons, List.filter_append, filter_pathKey_entryLines v hv, ih hl]
    rfl

/-! ## The paths are written in ascending order (C7) -/

/-- C7: in every state reached from the empty Swagger by a sequence of
`CreateOperation` calls, for every iteration order of the maps, the path key
lines of the text `String` returns (the lines indented by exactly two spaces)
are the lines `  <path>:` of a list of paths that is strictly ascending in the
order of `cmp.Compare` (so no path occurs twice) and that holds exactly the
paths of the accepted parts. -/
theorem path_key_lines_strictly_ascending (parts : List Str) (opsIter compsIter : GoMap)
    (ho : opsIter.Perm (runCalls NewSwagger (parts.map Call.operation)).operations) :
    ∃ keys : List Str,
      keys.Pairwise (fun a b => Compare a b < 0) ∧
      (∀ path, path ∈ keys ↔ path ∈ pathsOf parts) ∧
      (Split ((runCalls NewSwagger (parts.map Call.operation)).String opsIter compsIter)
          (rune '\n')).filter isPathKeyLine
        = keys.map (fun path => (lit "  ") ++ path ++ (lit ":")) := by
  obtain ⟨i1, _, i3, i4, i5, i6⟩ := runOperations_invariant parts NewSwagger
  have hmain : (runCalls NewSwagger (parts.map Call.operation)).main = [] := i1
  have hcomp : (runCalls NewSwagger (parts.map Call.operation)).components = [] := i3
  have hnodup := i5 (by simp [NewSwagger, keysOf])
  have htok := i6 (by simp [NewSwagger, keysOf])
  have hsp := sortFunc_perm (fun a b : Str × Str => Compare a.1 b.1) opsIter
  have hkeys : (keysOf (SortFunc (fun a b => Compare a.1 b.1) opsIter)).Perm
      (keysOf (runCalls NewSwagger (parts.map Call.operation)).operations) :=
    (hsp.trans ho).map _
  refine ⟨keysOf (SortFunc (fun a b => Compare a.1 b.1) opsIter), ?_, ?_, ?_⟩
  · exact sortFunc_strict opsIter (((ho.map Prod.fst).nodup_iff).2 hnodup)
  · intro path
    rw [hkeys.mem_iff, i4 path]
    simp [NewSwagger, keysOf]
  · have hstok : ∀ k ∈ keysOf (SortFunc (fun a b => Compare a.1 b.1) opsIter), IsToken k :=
      fun k hk => htok k (hkeys.mem_iff.1 hk)
    rw [string_eq, hmain, hcomp]
    by_cases hops : (runCalls NewSwagger (parts.map Call.operation)).operations = []
    · rw [hops] at ho
      have ho2 : opsIter = [] := List.Perm.eq_nil ho
      subst ho2
      simp [hops, Split, SortFunc, keysOf, isPathKeyLine, indentedExactly]
    · rw [if_neg hops]
      simp only [if_true, List.nil_append, List.append_nil]
      rw [split_unlines]
      · have h1 : isPathKeyLine [] = false := rfl
        have h2 : isPathKeyLine (lit "paths:") = false := by decide
        rw [List.filter_append, List.filter_cons, List.filter_cons,
          filter_pathKey_entries _ hstok, h1, h2]
        simp [h1]
      · intro l hl
        rcases List.mem_cons.1 hl with rfl | hl
        · simp
        · rcases List.mem_cons.1 hl with rfl | hl
          · decide
          · exact flatMap_entryLines_no_break _
              (fun k hk => token_no_break k (hstok k hk)) l hl

/-- Witness of C7: three accepted parts on two paths, added out of order, and
one rejected part. -/
theorem path_key_lines_strictly_ascending_witness :
    ∃ keys : List Str,
      keys.Pairwise (fun a b => Compare a b < 0) ∧
      (∀ path, path ∈ keys ↔ path ∈ pathsOf
        [(lit "GET /b x"), (lit "GET /a y"), (lit "bad"), (lit "POST /b z")]) ∧
      (Split ((runCalls NewSwagger
          ([(lit "GET /b x"), (lit "GET /a y"), (lit "bad"), (lit "POST /b z")].map
            Call.operation)).String
          [((lit "/a"), (lit "  GET:\n    operationId: y\n")),
            ((lit "/b"),
              (lit "  GET:\n    operationId: x\n\n  POST:\n    operationId: z\n"))] [])
          (rune '\n')).filter isPathKeyLine
        = keys.map (fun path => (lit "  ") ++ path ++ (lit ":")) :=
  path_key_lines_strictly_ascending
    [(lit "GET /b x"), (lit "GET /a y"), (lit "bad"), (lit "POST /b z")]
    [((lit "/a"), (lit "  GET:\n    operationId: y\n")),
      ((lit "/b"), (lit "  GET:\n    operationId: x\n\n  POST:\n    operationId: z\n"))] []
    (by
      have h : (runCalls NewSwagger
          ([(lit "GET /b x"), (lit "GET /a y"), (lit "bad"), (lit "POST /b z")].map
            Call.operation)).operations
          = [((lit "/b"),
                (lit "  GET:\n    operationId: x\n\n  POST:\n    operationId: z\n")),
              ((lit "/a"), (lit "  GET:\n    operationId: y\n"))] := by decide
      rw [h]
      exact List.Perm.swap _ _ _)

/-! ## Contents appended under one key -/

theorem mergeContent_nil (k c : Str) : mergeContent [] k c = [(k, c)] := rfl

theorem mergeContent_single (k v c : Str) :
    mergeContent [(k, v)] k c = [(k, v ++ (lit "\n") ++ c)] := by
  simp [mergeContent, mapLookup, mapStore]

theorem foldl_append_break (a b : Str) (cs : List Str) :
    cs.foldl (fun acc c => acc ++ (lit "\n") ++ c) (a ++ (lit "\n") ++ b)
      = a ++ (lit "\n") ++ cs.foldl (fun acc c => acc ++ (lit "\n") ++ c) b := by
  induction cs generalizing b with
  | nil => rfl
  | cons c cs ih =>
    simp only [List.foldl_cons]
    rw [← ih (b ++ (lit "\n") ++ c)]
    simp [List.append_assoc]

theorem joinBreak_cons_cons (c d : Str) (rest : List Str) :
    joinBreak (c :: d :: rest) = c ++ (lit "\n") ++ joinBreak (d :: rest) := rfl

/-- Appending one content after the other, a line break in between, gives the
contents joined in call order. -/
theorem joinBreak_eq_foldl (c0 : Str) (cs : List Str) :
    joinBreak (c0 :: cs) = cs.foldl (fun acc c => acc ++ (lit "\n") ++ c) c0 := by
  induction cs generalizing c0 with
  | nil => rfl
  | cons c cs ih =>
    rw [joinBreak_cons_cons, ih c, List.foldl_cons, foldl_append_break]

/-- The lines of contents that are joined, each content given by its lines:
the break between two contents adds one empty line. -/
theorem joinBreak_unlines (Ls : List (List Str)) (h : ∀ L ∈ Ls, ∀ l ∈ L, (rune '\n') ∉ l) :
    ∃ X, joinBreak (Ls.map unlines) = unlines X ∧ (∀ l ∈ X, (rune '\n') ∉ l) ∧
      X.filter nonBlank = Ls.flatMap (fun L => L.filter nonBlank) := by
  induction Ls with
  | nil => exact ⟨[], rfl, by simp, rfl⟩
  | cons L rest ih =>
    have hL : ∀ l ∈ L, (rune '\n') ∉ l := h L (by simp)
    obtain ⟨X, hX1, hX2, hX3⟩ := ih (fun L1 hL1 => h L1 (by simp [hL1]))
    cases rest with
    | nil => exact ⟨L, rfl, hL, by simp⟩
    | cons L2 rest2 =>
      refine ⟨L ++ [[]] ++ X, ?_, ?_, ?_⟩
      · rw [List.map_cons, List.map_cons, joinBreak_cons_cons, ← List.map_cons, hX1,
          unlines_append, unlines_append]
        rfl
      · intro l hl
        rcases List.mem_append.1 hl with h1 | h1
        · rcases List.mem_append.1 h1 with h2 | h2
          · exact hL l h2
          · have : l = [] := by simpa using h2
            subst this
            simp
        · exact hX2 l h1
      · rw [List.filter_append, List.filter_append, hX3, List.flatMap_cons]
        simp [nonBlank_nil]

theorem map_flatMap_eq {α β γ : Type} (l : List α) (g : α → List β) (f : β → γ) :
    (l.flatMap g).map f = l.flatMap (fun a => (g a).map f) := by
  induction l with
  | nil => rfl
  | cons a l ih => rw [List.flatMap_cons, List.map_append, ih, List.flatMap_cons]

theorem contentLines_joinBreak (Ls : List (List Str)) (h : ∀ L ∈ Ls, ∀ l ∈ L, (rune '\n') ∉ l) :
    contentLines (joinBreak (Ls.map unlines))
      = Ls.flatMap (fun L => (L.filter nonBlank).map (fun line => (lit "    ") ++ line)) := by
  obtain ⟨X, hX1, hX2, hX3⟩ := joinBreak_unlines Ls h
  rw [hX1, contentLines_unlines X hX2, hX3]
  exact map_flatMap_eq Ls _ _

/-! ## Operations that share a path (C8) -/

theorem operationContent_eq_unlines (m id : Str) (payload : List Str) :
    operationContent m id payload
      = unlines (((lit "  ") ++ m ++ (lit ":")) :: ((lit "    operationId: ") ++ id)
          :: payload.map (fun line => (lit "    ") ++ ReplaceAll line (rune '\t') (lit "    "))) := by
  unfold operationContent
  rw [indentLines_eq_unlines, unlines_cons, unlines_cons]
  simp [List.append_assoc]

theorem createOperation_ok_run (s : Swagger) (part path : Str)
    (h : ∃ m id tags, headerOf part = m :: path :: id :: tags) :
    Call.run s (Call.operation part)
      = { s with operations := (mergeContent s.operations path
            (operationContent (methodOf part) (thirdTokenOf part) (payloadOf part))) } := by
  obtain ⟨m, id, tags, hh⟩ := h
  have h1 : methodOf part = m := by simp [methodOf, hh]
  have h2 : thirdTokenOf part = id := by simp [thirdTokenOf, hh]
  rw [h1, h2]
  simp [Call.run, createOperation_ok s part m path id tags hh]

/-- The operations map after calls that all name the path `path`, from a
state that holds only that path. -/
theorem runOperations_same_path (path : Str) (parts : List Str) (s : Swagger) (v : Str)
    (hs : s.operations = [(path, v)])
    (hP : ∀ part ∈ parts, ∃ m id tags, headerOf part = m :: path :: id :: tags) :
    (runCalls s (parts.map Call.operation)).operations
      = [(path, (parts.map (fun part =>
            operationContent (methodOf part) (thirdTokenOf part) (payloadOf part))).foldl
          (fun acc c => acc ++ (lit "\n") ++ c) v)] := by
  induction parts generalizing s v with
  | nil => simpa [runCalls] using hs
  | cons part parts ih =>
    rw [List.map_cons, runCalls_cons, createOperation_ok_run s part path (hP part (by simp))]
    rw [ih _ (v ++ (lit "\n")
        ++ operationContent (methodOf part) (thirdTokenOf part) (payloadOf part))
      (by simp [hs, mergeContent_single])
      (fun p hp => hP p (by simp [hp]))]
    rfl

/-- The operations map after calls that all name the path `path`, from a
state without operations: one entry, the contents joined in call order. -/
theorem runOperations_same_path_new (path : Str) (part : Str) (parts : List Str) (s : Swagger)
    (hs : s.operations = [])
    (hP : ∀ p ∈ part :: parts, ∃ m id tags, headerOf p = m :: path :: id :: tags) :
    (runCalls s ((part :: parts).map Call.operation)).operations
      = [(path, joinBreak ((part :: parts).map (fun part =>
            operationContent (methodOf part) (thirdTokenOf part) (payloadOf part))))] := by
  rw [List.map_cons, runCalls_cons, createOperation_ok_run s part path (hP part (by simp))]
  rw [runOperations_same_path path parts _
      (operationContent (methodOf part) (thirdTokenOf part) (payloadOf part))
      (by simp [hs, mergeContent_nil])
      (fun p hp => hP p (by simp [hp]))]
  rw [List.map_cons, joinBreak_eq_foldl]

theorem payloadOf_no_break (part : Str) : ∀ l ∈ payloadOf part, (rune '\n') ∉ l := by
  intro l hl
  exact mem_split_no_sep part (rune '\n') l (List.mem_of_mem_tail hl)

theorem nonBlank_of_mem (s : Str) (c : GoChar) (hc : c ∈ s) (hs : isSpace c = false) :
    nonBlank s = true :=
  (nonBlank_iff s).2 ⟨c, hc, hs⟩

theorem filter_nonBlank_indented (indent : Str) (payload : List Str)
    (hi : ∀ c ∈ indent, isSpace c = true) :
    (payload.map (fun line => indent ++ ReplaceAll line (rune '\t') (lit "    "))).filter nonBlank
      = (payload.filter nonBlank).map (fun line => indent ++ ReplaceAll line (rune '\t') (lit "    ")) := by
  induction payload with
  | nil => rfl
  | cons l ls ih =>
    rw [List.map_cons, List.filter_cons, List.filter_cons, nonBlank_indent_replaceAll indent l hi,
      ih]
    by_cases h : nonBlank l = true
    · simp [h]
    · simp [h]

/-- The lines written for the stored content of one accepted operation. -/
theorem operation_stored_lines (part : Str) :
    ((((lit "  ") ++ methodOf part ++ (lit ":")) :: ((lit "    operationId: ") ++ thirdTokenOf part)
        :: (payloadOf part).map
            (fun line => (lit "    ") ++ ReplaceAll line (rune '\t') (lit "    "))).filter nonBlank).map
        (fun line => (lit "    ") ++ line)
      = operationLines part := by
  have h1 : nonBlank ((lit "  ") ++ methodOf part ++ (lit ":")) = true :=
    nonBlank_of_mem _ (rune ':') (by simp) (by decide)
  have h2 : nonBlank ((lit "    operationId: ") ++ thirdTokenOf part) = true :=
    nonBlank_of_mem _ (rune 'o') (by simp) (by decide)
  rw [List.filter_cons, if_pos h1, List.filter_cons, if_pos h2,
    filter_nonBlank_indented _ _ (by decide)]
  unfold operationLines
  simp [List.append_assoc]

theorem header_tokens (part m path id : Str) (tags : List Str)
    (h : headerOf part = m :: path :: id :: tags) :
    methodOf part = m ∧ thirdTokenOf part = id ∧ IsToken m ∧ IsToken path ∧ IsToken id := by
  have htok : ∀ t ∈ headerOf part, IsToken t := fields_tokens (firstLine part)
  rw [h] at htok
  exact ⟨by simp [methodOf, h], by simp [thirdTokenOf, h], htok m (by simp), htok path (by simp),
    htok id (by simp)⟩

theorem ne_space_of_not_isSpace (c : GoChar) (h : isSpace c = false) : c ≠ (rune ' ') := by
  rintro rfl
  exact absurd h (by decide)

theorem filter_methodKey_operationLines (part : Str) (hm : IsToken (methodOf part)) :
    (operationLines part).filter isMethodKeyLine
      = [(lit "      ") ++ methodOf part ++ (lit ":")] := by
  obtain ⟨c, r, hcr, hc⟩ := token_head _ hm
  have hne := ne_space_of_not_isSpace c hc
  have h1 : isMethodKeyLine ((lit "      ") ++ methodOf part ++ (lit ":")) = true := by
    rw [hcr]
    simp [isMethodKeyLine, indentedExactly, hne]
  have h2 : isMethodKeyLine ((lit "        operationId: ") ++ thirdTokenOf part) = false := rfl
  unfold operationLines
  rw [List.filter_cons, if_pos h1, List.filter_cons, h2]
  simp only [Bool.false_eq_true, if_false, List.cons.injEq, true_and]
  refine List.filter_eq_nil_iff.2 (fun l hl => ?_)
  obtain ⟨l0, _, rfl⟩ := List.mem_map.1 hl
  simp [isMethodKeyLine, indentedExactly]

theorem operationLines_no_break (part : Str) (hm : IsToken (methodOf part))
    (hid : IsToken (thirdTokenOf part)) : ∀ l ∈ operationLines part, (rune '\n') ∉ l := by
  intro l hl
  unfold operationLines at hl
  rcases List.mem_cons.1 hl with rfl | hl
  · intro hc
    rcases List.mem_append.1 hc with h2 | h2
    · rcases List.mem_append.1 h2 with h3 | h3
      · exact absurd h3 (by decide)
      · exact token_no_break _ hm h3
    · exact absurd h2 (by decide)
  · rcases List.mem_cons.1 hl with rfl | hl
    · intro hc
      rcases List.mem_append.1 hc with h2 | h2
      · exact absurd h2 (by decide)
      · exact token_no_break _ hid h2
    · obtain ⟨l0, h0, rfl⟩ := List.mem_map.1 hl
      intro hc
      rcases List.mem_append.1 hc with h2 | h2
      · exact absurd h2 (by decide)
      · exact replaceAll_no_break l0 (payloadOf_no_break part l0 (List.mem_filter.1 h0).1) h2

/-- The content lines of the contents of accepted operation parts, joined. -/
theorem contentLines_operations (parts : List Str)
    (hP : ∀ part ∈ parts, IsToken (methodOf part) ∧ IsToken (thirdTokenOf part)) :
    contentLines (joinBreak (parts.map (fun part =>
        operationContent (methodOf part) (thirdTokenOf part) (payloadOf part))))
      = parts.flatMap operationLines := by
  have hmap : parts.map (fun part =>
        operationContent (methodOf part) (thirdTokenOf part) (payloadOf part))
      = (parts.map (fun part =>
          ((lit "  ") ++ methodOf part ++ (lit ":"))
            :: ((lit "    operationId: ") ++ thirdTokenOf part)
            :: (payloadOf part).map
                (fun line => (lit "    ") ++ ReplaceAll line (rune '\t') (lit "    ")))).map unlines := by
    rw [List.map_map]
    exact List.map_congr_left (fun part _ => operationContent_eq_unlines _ _ _)
  rw [hmap, contentLines_joinBreak]
  · rw [List.flatMap_map]
    exact List.flatMap_congr (fun part _ => operation_stored_lines part)
  · intro L hL l hl
    obtain ⟨part, hp, rfl⟩ := List.mem_map.1 hL
    obtain ⟨hm, hid⟩ := hP part hp
    rcases List.mem_cons.1 hl with rfl | hl
    · intro hc
      rcases List.mem_append.1 hc with h2 | h2
      · rcases List.mem_append.1 h2 with h3 | h3
        · exact absurd h3 (by decide)
        · exact token_no_break _ hm h3
      · exact absurd h2 (by decide)
    · rcases List.mem_cons.1 hl with rfl | hl
      · intro hc
        rcases List.mem_append.1 hc with h2 | h2
        · exact absurd h2 (by decide)
        · exact token_no_break _ hid h2
      · obtain ⟨l0, h0, rfl⟩ := List.mem_map.1 hl
        intro hc
        rcases List.mem_append.1 hc with h2 | h2
        · exact absurd h2 (by decide)
        · exact replaceAll_no_break l0 (payloadOf_no_break part l0 h0) h2

theorem sortFunc_single {α : Type} (cmp : α → α → Int) (a : α) : SortFunc cmp [a] = [a] := rfl

theorem isMethodKeyLine_pathKey (path : Str) (h : IsToken path) :
    isMethodKeyLine ((lit "  ") ++ path ++ (lit ":")) = false := by
  obtain ⟨c, r, rfl, hc⟩ := token_head _ h
  have hne := ne_space_of_not_isSpace c hc
  simp [isMethodKeyLine, indentedExactly, hne]

theorem filter_methodKey_operations (parts : List Str)
    (hP : ∀ part ∈ parts, IsToken (methodOf part)) :
    (parts.flatMap operationLines).filter isMethodKeyLine
      = parts.map (fun part => (lit "      ") ++ methodOf part ++ (lit ":")) := by
  induction parts with
  | nil => rfl
  | cons part parts ih =>
    rw [List.flatMap_cons, List.filter_append,
      filter_methodKey_operationLines part (hP part (by simp)),
      ih (fun p hp => hP p (by simp [hp]))]
    rfl

/-- C8: after a non-empty sequence of accepted `CreateOperation` calls on the
empty Swagger that all name the path `path`, for every iteration order, the
lines of the text `String` returns are: an empty line, `paths:`, the key line
of the path, then for each call in call order its method key line, its
`operationId:` line with the third header token, and its payload lines that
are not blank; and the method key lines among them (indentation of exactly six
spaces) are the method key lines of the calls, one per call, in call order. -/
theorem operations_on_one_path_in_call_order (path : Str) (parts : List Str)
    (opsIter compsIter : GoMap) (hne : parts ≠ [])
    (hP : ∀ part ∈ parts, ∃ m id tags, headerOf part = m :: path :: id :: tags)
    (ho : opsIter.Perm (runCalls NewSwagger (parts.map Call.operation)).operations) :
    Split ((runCalls NewSwagger (parts.map Call.operation)).String opsIter compsIter) (rune '\n')
        = [] :: (lit "paths:") :: ((lit "  ") ++ path ++ (lit ":"))
            :: parts.flatMap operationLines ++ [[]] ∧
    (Split ((runCalls NewSwagger (parts.map Call.operation)).String opsIter compsIter)
        (rune '\n')).filter isMethodKeyLine
      = parts.map (fun part => (lit "      ") ++ methodOf part ++ (lit ":")) := by
  obtain ⟨i1, _, i3, _, _, _⟩ := runOperations_invariant parts NewSwagger
  have hmain : (runCalls NewSwagger (parts.map Call.operation)).main = [] := i1
  have hcomp : (runCalls NewSwagger (parts.map Call.operation)).components = [] := i3
  have htoks : ∀ part ∈ parts,
      IsToken (methodOf part) ∧ IsToken (thirdTokenOf part) ∧ IsToken path := by
    intro part hp
    obtain ⟨m, id, tags, hh⟩ := hP part hp
    obtain ⟨h1, h2, h3, h4, h5⟩ := header_tokens part m path id tags hh
    exact ⟨h1 ▸ h3, h2 ▸ h5, h4⟩
  obtain ⟨part0, rest, rfl⟩ := List.exists_cons_of_ne_nil hne
  have hpath : IsToken path := (htoks part0 (by simp)).2.2
  have hops := runOperations_same_path_new path part0 rest NewSwagger rfl hP
  have hlines : Split ((runCalls NewSwagger ((part0 :: rest).map Call.operation)).String
        opsIter compsIter) (rune '\n')
      = [] :: (lit "paths:") :: ((lit "  ") ++ path ++ (lit ":"))
          :: (part0 :: rest).flatMap operationLines ++ [[]] := by
    rw [string_eq, hmain, hcomp, hops]
    rw [hops] at ho
    rw [List.perm_singleton.1 ho, sortFunc_single]
    simp only [List.nil_append, if_true, List.append_nil, List.flatMap_cons, List.flatMap_nil]
    rw [if_neg (by simp)]
    have hcl := contentLines_operations (part0 :: rest)
      (fun p hp => ⟨(htoks p hp).1, (htoks p hp).2.1⟩)
    rw [split_unlines]
    · unfold entryLines
      rw [hcl]
      simp
    · intro l hl
      rcases List.mem_cons.1 hl with rfl | hl
      · simp
      · rcases List.mem_cons.1 hl with rfl | hl
        · decide
        · exact entryLines_no_break _ (token_no_break _ hpath) l hl
  refine ⟨hlines, ?_⟩
  rw [hlines]
  have h1 : isMethodKeyLine [] = false := rfl
  have h2 : isMethodKeyLine (lit "paths:") = false := by decide
  rw [List.filter_append, List.filter_cons, List.filter_cons, List.filter_cons, h1, h2,
    isMethodKeyLine_pathKey path hpath,
    filter_methodKey_operations _ (fun p hp => (htoks p hp).1)]
  simp [h1]

/-- Witness of C8: three calls on the path `/a`, two of them with the method
`GET`; the method key lines come out one per call, in call order. -/
theorem operations_on_one_path_in_call_order_witness :
    (Split ((runCalls NewSwagger
        ([(lit "GET /a first\nx: 1"), (lit "GET /a second"),
          (lit "POST /a third\n\ty: 2\n")].map Call.operation)).String
        (runCalls NewSwagger
          ([(lit "GET /a first\nx: 1"), (lit "GET /a second"),
            (lit "POST /a third\n\ty: 2\n")].map Call.operation)).operations [])
        (rune '\n')).filter isMethodKeyLine
      = [(lit "      GET:"), (lit "      GET:"), (lit "      POST:")] :=
  (operations_on_one_path_in_call_order (lit "/a")
    [(lit "GET /a first\nx: 1"), (lit "GET /a second"), (lit "POST /a third\n\ty: 2\n")]
    _ [] (by decide)
    (by
      intro part hp
      simp only [List.mem_cons, List.mem_singleton, List.not_mem_nil, or_false] at hp
      rcases hp with rfl | rfl | rfl
      · exact ⟨_, _, _, rfl⟩
      · exact ⟨_, _, _, rfl⟩
      · exact ⟨_, _, _, rfl⟩)
    (List.Perm.refl _)).2.trans (by decide)

/-! ## Components that share a type (C9) -/

theorem createComponents_ok_run (s : Swagger) (part componentType : Str)
    (h : ∃ rest, headerOf part = componentType :: rest) :
    Call.run s (Call.components part)
      = { s with components := (mergeContent s.components componentType
            (indentLines (lit "  ") (payloadOf part))) } := by
  obtain ⟨rest, hh⟩ := h
  simp [Call.run, createComponents_ok s part componentType rest hh]

/-- A sequence of `CreateComponents` calls changes neither main nor the
operations. -/
theorem runComponents_frame (parts : List Str) (s : Swagger) :
    (runCalls s (parts.map Call.components)).main = s.main ∧
    (runCalls s (parts.map Call.components)).operations = s.operations := by
  induction parts generalizing s with
  | nil => exact ⟨rfl, rfl⟩
  | cons part parts ih =>
    rw [List.map_cons, runCalls_cons]
    obtain ⟨h1, h2⟩ := ih (Call.run s (Call.components part))
    rw [h1, h2]
    rcases hf : headerOf part with _ | ⟨t, rest⟩
    · simp [Call.run, createComponents_err s part hf]
    · rw [createComponents_ok_run s part t ⟨rest, hf⟩]
      exact ⟨rfl, rfl⟩

theorem runComponents_same_type (componentType : Str) (parts : List Str) (s : Swagger) (v : Str)
    (hs : s.components = [(componentType, v)])
    (hT : ∀ part ∈ parts, ∃ rest, headerOf part = componentType :: rest) :
    (runCalls s (parts.map Call.components)).components
      = [(componentType, (parts.map (fun part => indentLines (lit "  ") (payloadOf part))).foldl
          (fun acc c => acc ++ (lit "\n") ++ c) v)] := by
  induction parts generalizing s v with
  | nil => simpa [runCalls] using hs
  | cons part parts ih =>
    rw [List.map_cons, runCalls_cons, createComponents_ok_run s part componentType
      (hT part (by simp))]
    rw [ih _ (v ++ (lit "\n") ++ indentLines (lit "  ") (payloadOf part))
      (by simp [hs, mergeContent_single])
      (fun p hp => hT p (by simp [hp]))]
    rfl

theorem runComponents_same_type_new (componentType : Str) (part : Str) (parts : List Str)
    (s : Swagger) (hs : s.components = [])
    (hT : ∀ p ∈ part :: parts, ∃ rest, headerOf p = componentType :: rest) :
    (runCalls s ((part :: parts).map Call.components)).components
      = [(componentType, joinBreak ((part :: parts).map
          (fun part => indentLines (lit "  ") (payloadOf part))))] := by
  rw [List.map_cons, runCalls_cons, createComponents_ok_run s part componentType
    (hT part (by simp))]
  rw [runComponents_same_type componentType parts _ (indentLines (lit "  ") (payloadOf part))
      (by simp [hs, mergeContent_nil])
      (fun p hp => hT p (by simp [hp]))]
  rw [List.map_cons, joinBreak_eq_foldl]

/-- The content lines of the contents of component parts, joined. -/
theorem contentLines_components (parts : List Str) :
    contentLines (joinBreak (parts.map (fun part => indentLines (lit "  ") (payloadOf part))))
      = parts.flatMap componentLines := by
  have hmap : parts.map (fun part => indentLines (lit "  ") (payloadOf part))
      = (parts.map (fun part => (payloadOf part).map
          (fun line => (lit "  ") ++ ReplaceAll line (rune '\t') (lit "    ")))).map unlines := by
    rw [List.map_map]
    exact List.map_congr_left (fun part _ => indentLines_eq_unlines _ _)
  rw [hmap, contentLines_joinBreak]
  · rw [List.flatMap_map]
    refine List.flatMap_congr (fun part _ => ?_)
    rw [filter_nonBlank_indented _ _ (by decide)]
    unfold componentLines
    simp [List.append_assoc]
  · intro L hL l hl
    obtain ⟨part, _, rfl⟩ := List.mem_map.1 hL
    obtain ⟨l0, h0, rfl⟩ := List.mem_map.1 hl
    intro hc
    rcases List.mem_append.1 hc with h2 | h2
    · exact absurd h2 (by decide)
    · exact replaceAll_no_break l0 (payloadOf_no_break part l0 h0) h2

theorem replaceAll_of_not_mem (s new : Str) (old : GoChar) (h : old ∉ s) :
    ReplaceAll s old new = s := by
  induction s with
  | nil => rfl
  | cons c cs ih =>
    have hc : c ≠ old := fun e => h (by simp [e])
    have hcs : old ∉ cs := fun e => h (by simp [e])
    simp [ReplaceAll, hc, ih hcs]

theorem componentLines_tab_free (part : Str) (h : ∀ line ∈ payloadOf part, (rune '\t') ∉ line) :
    componentLines part
      = ((payloadOf part).filter nonBlank).map (fun line => (lit "      ") ++ line) := by
  unfold componentLines
  refine List.map_congr_left (fun line hl => ?_)
  rw [replaceAll_of_not_mem line _ (rune '\t') (h line (List.mem_filter.1 hl).1)]

/-- A body line that holds a tab, which `processFile` (line 101) never lets
through to `CreateComponents`: the body of the part below has the one line
`<tab>A: x`, and `String` writes it with the tab replaced by four spaces. -/
theorem components_line_with_tab_is_rewritten :
    payloadOf (lit "schemas\n\tA: x") = [(lit "\tA: x")] ∧
    nonBlank (lit "\tA: x") = true ∧
    Split ((runCalls NewSwagger [Call.components (lit "schemas\n\tA: x")]).String []
        (runCalls NewSwagger [Call.components (lit "schemas\n\tA: x")]).components) (rune '\n')
      = [(lit "components:"), (lit "  schemas:"), (lit "          A: x"), []] ∧
    (lit "      \tA: x") ∉
      Split ((runCalls NewSwagger [Call.components (lit "schemas\n\tA: x")]).String []
        (runCalls NewSwagger [Call.components (lit "schemas\n\tA: x")]).components) (rune '\n') := by
  decide

/-- For bodies of any kind, tabs included: the stored content and the lines of
`String` after calls of `CreateComponents` with one component type, every body
line with its tabs replaced by four spaces. -/
theorem components_lines_aux (componentType : Str) (parts : List Str)
    (opsIter compsIter : GoMap) (hne : parts ≠ [])
    (hT : ∀ part ∈ parts, ∃ rest, headerOf part = componentType :: rest)
    (hc : compsIter.Perm (runCalls NewSwagger (parts.map Call.components)).components) :
    (runCalls NewSwagger (parts.map Call.components)).components
        = [(componentType, joinBreak (parts.map
            (fun part => indentLines (lit "  ") (payloadOf part))))] ∧
    Split ((runCalls NewSwagger (parts.map Call.components)).String opsIter compsIter) (rune '\n')
        = (lit "components:") :: ((lit "  ") ++ componentType ++ (lit ":"))
            :: parts.flatMap componentLines ++ [[]] := by
  obtain ⟨i1, i2⟩ := runComponents_frame parts NewSwagger
  have hmain : (runCalls NewSwagger (parts.map Call.components)).main = [] := i1
  have hops : (runCalls NewSwagger (parts.map Call.components)).operations = [] := i2
  obtain ⟨part0, rest, rfl⟩ := List.exists_cons_of_ne_nil hne
  have htok : IsToken componentType := by
    obtain ⟨r, hr⟩ := hT part0 (by simp)
    have := fields_tokens (firstLine part0) componentType
    unfold headerOf at hr
    rw [hr] at this
    exact this (by simp)
  have hcomps := runComponents_same_type_new componentType part0 rest NewSwagger rfl hT
  refine ⟨hcomps, ?_⟩
  rw [string_eq, hmain, hops, hcomps]
  rw [hcomps] at hc
  rw [List.perm_singleton.1 hc]
  simp only [List.nil_append, if_true, List.flatMap_cons, List.flatMap_nil, List.append_nil]
  rw [if_neg (by simp)]
  rw [split_unlines]
  · unfold entryLines
    rw [contentLines_components]
    simp
  · intro l hl
    rcases List.mem_cons.1 hl with rfl | hl
    · decide
    · exact entryLines_no_break _ (token_no_break _ htok) l hl

theorem indentLines_tab_free (indent : Str) (lines : List Str)
    (h : ∀ line ∈ lines, (rune '\t') ∉ line) :
    indentLines indent lines = unlines (lines.map (fun line => indent ++ line)) := by
  induction lines with
  | nil => rfl
  | cons l ls ih =>
    rw [indentLines, replaceAll_of_not_mem l _ (rune '\t') (h l (by simp)),
      ih (fun x hx => h x (by simp [hx]))]
    rfl

/-- C9: after a non-empty sequence of `CreateComponents` calls on the empty
Swagger whose headers all have the first token `componentType` and whose body
lines hold no tab (the program replaces tabs before building fragments), the
components map holds one entry, under `componentType`: the bodies, every line
behind two spaces, joined in call order with a line break between two
neighbours (a later part is appended, never replaces); and for every iteration
order the lines of the text `String` returns are `components:`, the one key
line of the type, then for each call in call order the lines of its body that
are not blank, each once and behind six spaces. -/
theorem components_of_one_type_in_call_order (componentType : Str) (parts : List Str)
    (opsIter compsIter : GoMap) (hne : parts ≠ [])
    (hT : ∀ part ∈ parts, ∃ rest, headerOf part = componentType :: rest)
    (htab : ∀ part ∈ parts, ∀ line ∈ payloadOf part, (rune '\t') ∉ line)
    (hc : compsIter.Perm (runCalls NewSwagger (parts.map Call.components)).components) :
    (runCalls NewSwagger (parts.map Call.components)).components
        = [(componentType, joinBreak (parts.map
            (fun part => unlines ((payloadOf part).map (fun line => (lit "  ") ++ line)))))] ∧
    Split ((runCalls NewSwagger (parts.map Call.components)).String opsIter compsIter) (rune '\n')
        = (lit "components:") :: ((lit "  ") ++ componentType ++ (lit ":"))
            :: parts.flatMap (fun part =>
                ((payloadOf part).filter nonBlank).map (fun line => (lit "      ") ++ line))
              ++ [[]] := by
  have key := components_lines_aux componentType parts opsIter compsIter hne hT hc
  refine ⟨?_, ?_⟩
  · rw [key.1, List.map_congr_left
      (fun part hp => indentLines_tab_free (lit "  ") (payloadOf part) (htab part hp))]
  · rw [key.2, List.flatMap_congr (fun part hp => componentLines_tab_free part (htab part hp))]

/-- Witness of C9: two parts of the type `schemas`, the second with a blank
line in its body. -/
theorem components_of_one_type_in_call_order_witness :
    (runCalls NewSwagger
        ([(lit "schemas\nA:\n  type: object"),
          (lit "schemas extra\n\nB:\n  type: string\n")].map Call.components)).components
      = [((lit "schemas"),
          (lit "  A:\n    type: object\n\n  \n  B:\n    type: string\n  \n"))] ∧
    Split ((runCalls NewSwagger
        ([(lit "schemas\nA:\n  type: object"),
          (lit "schemas extra\n\nB:\n  type: string\n")].map Call.components)).String []
        (runCalls NewSwagger
          ([(lit "schemas\nA:\n  type: object"),
            (lit "schemas extra\n\nB:\n  type: string\n")].map Call.components)).components)
        (rune '\n')
      = [(lit "components:"), (lit "  schemas:"), (lit "      A:"),
          (lit "        type: object"), (lit "      B:"), (lit "        type: string"), []] :=
  have h := components_of_one_type_in_call_order (lit "schemas")
    [(lit "schemas\nA:\n  type: object"), (lit "schemas extra\n\nB:\n  type: string\n")]
    [] _ (by decide)
    (by
      intro part hp
      simp only [List.mem_cons, List.mem_singleton, List.not_mem_nil, or_false] at hp
      rcases hp with rfl | rfl
      · exact ⟨_, rfl⟩
      · exact ⟨_, rfl⟩)
    (by decide)
    (List.Perm.refl _)
  ⟨h.1.trans (by decide), h.2.trans (by decide)⟩

/-! ## The main body comes first (C10) -/

theorem createOperation_main (s : Swagger) (part : Str) :
    (s.CreateOperation part).1.main = s.main := by
  unfold Swagger.CreateOperation
  simp only
  split <;> rfl

theorem createComponents_main (s : Swagger) (part : Str) :
    (s.CreateComponents part).1.main = s.main := by
  unfold Swagger.CreateComponents
  simp only
  split <;> rfl

theorem run_main (s : Swagger) (c : Call) (h : s.mainSet = true) :
    (Call.run s c).main = s.main := by
  cases c with
  | main part => simp [Call.run, createMain_of_mainSet s part h]
  | operation part => simp [Call.run, createOperation_main]
  | components part => simp [Call.run, createComponents_main]

theorem runCalls_main (s : Swagger) (calls : List Call) (h : s.mainSet = true) :
    (runCalls s calls).main = s.main := by
  induction calls generalizing s with
  | nil => rfl
  | cons c cs ih =>
    rw [runCalls_cons, ih (Call.run s c) (run_mainSet s c h), run_main s c h]

theorem createMain_ok_main (s : Swagger) (p : Str) (h : (s.CreateMain p).2 = none) :
    (s.CreateMain p).1.main = p := by
  unfold Swagger.CreateMain at h ⊢
  split at h
  · simp at h
  · split at h
    · simp at h
    · rename_i h1 h2
      rw [if_neg h1, if_neg h2]

theorem unlines_cons_ne_nil (l : Str) (ls : List Str) : unlines (l :: ls) ≠ [] := by
  rw [unlines_cons]
  simp

/-- C10: after a successful `CreateMain p` and any further sequence of calls
of the merge methods, for every iteration order, the text `String` returns
begins with `p`, and it is `p` exactly when the state holds no operation and no
component. -/
theorem string_begins_with_main (s : Swagger) (p : Str) (calls : List Call)
    (opsIter compsIter : GoMap) (h : (s.CreateMain p).2 = none) :
    (∃ rest, (runCalls (s.CreateMain p).1 calls).String opsIter compsIter = p ++ rest) ∧
    ((runCalls (s.CreateMain p).1 calls).String opsIter compsIter = p ↔
      (runCalls (s.CreateMain p).1 calls).operations = [] ∧
        (runCalls (s.CreateMain p).1 calls).components = []) := by
  have hmain : (runCalls (s.CreateMain p).1 calls).main = p := by
    rw [runCalls_main _ calls (createMain_ok_mainSet s p h), createMain_ok_main s p h]
  rw [string_eq, hmain]
  refine ⟨⟨_, List.append_assoc _ _ _⟩, ?_⟩
  constructor
  · intro heq
    rw [List.append_assoc] at heq
    have hnil := List.append_right_eq_self.1 heq
    obtain ⟨h1, h2⟩ := List.append_eq_nil.1 hnil
    constructor
    · by_contra hne
      rw [if_neg hne] at h1
      exact unlines_cons_ne_nil _ _ h1
    · by_contra hne
      rw [if_neg hne] at h2
      exact unlines_cons_ne_nil _ _ h2
  · rintro ⟨h1, h2⟩
    simp [h1, h2]

/-- Witness of C10: a main payload on the empty Swagger, then one operation
and one component. -/
theorem string_begins_with_main_witness :
    ∃ rest, (runCalls (NewSwagger.CreateMain (lit "info: x\n")).1
        [Call.operation (lit "GET /a b"), Call.components (lit "schemas\nA: 1")]).String
        [((lit "/a"), (lit "  GET:\n    operationId: b\n"))]
        [((lit "schemas"), (lit "  A: 1\n"))]
      = (lit "info: x\n") ++ rest :=
  (string_begins_with_main NewSwagger (lit "info: x\n")
    [Call.operation (lit "GET /a b"), Call.components (lit "schemas\nA: 1")]
    [((lit "/a"), (lit "  GET:\n    operationId: b\n"))]
    [((lit "schemas"), (lit "  A: 1\n"))] (by decide)).1

/-! ## The driver on an operation fragment with a short header -/

theorem splitN2_append_sep (l rest : Str) (sep : GoChar) (h : sep ∉ l) :
    SplitN2 (l ++ sep :: rest) sep = [l, rest] := by
  induction l with
  | nil => simp [SplitN2]
  | cons c l ih =>
    have hc : c ≠ sep := fun e => h (by simp [e])
    have hl : sep ∉ l := fun e => h (by simp [e])
    simp [SplitN2, hc, ih hl]

theorem utf8Bytes_append (a b : Str) : utf8Bytes (a ++ b) = utf8Bytes a ++ utf8Bytes b := by
  induction a with
  | nil => rfl
  | cons c a ih =>
    show bytesOf c ++ utf8Bytes (a ++ b) = bytesOf c ++ utf8Bytes a ++ utf8Bytes b
    rw [ih, List.append_assoc]

theorem len_append (a b : Str) : len (a ++ b) = len a + len b := by
  unfold len
  rw [utf8Bytes_append, List.length_append]

theorem utf8Len_pos (c : GoChar) : 0 < utf8Len c :=
  bytesOf_length_pos c

theorem len_cons (c : GoChar) (s : Str) : len (c :: s) = utf8Len c + len s := by
  simp [len, utf8Len, utf8Bytes]

/-- A slice at the end of a prefix, which is a character boundary, leaves
what follows the prefix. -/
theorem sliceFrom_append (pre rest : Str) : sliceFrom (pre ++ rest) (len pre) = Slice.ok rest := by
  induction pre with
  | nil => cases rest <;> simp [sliceFrom, len, utf8Bytes]
  | cons c pre ih =>
    have hpos := utf8Len_pos c
    rw [List.cons_append, len_cons, sliceFrom]
    rw [if_neg (by omega), if_pos (by omega)]
    have : utf8Len c + len pre - utf8Len c = len pre := by omega
    rw [this, ih]

theorem sliceFrom_zero (s : Str) : sliceFrom s 0 = Slice.ok s := by
  cases s <;> simp [sliceFrom]

/-- A slice past a prefix is the slice of what follows the prefix. -/
theorem sliceFrom_append_add (pre rest : Str) (k : Nat) :
    sliceFrom (pre ++ rest) (len pre + k) = sliceFrom rest k := by
  induction pre with
  | nil => simp [len, utf8Bytes]
  | cons c pre ih =>
    have hpos := utf8Len_pos c
    rw [List.cons_append, len_cons, sliceFrom]
    rw [if_neg (by omega), if_pos (by omega)]
    have : utf8Len c + len pre + k - utf8Len c = len pre + k := by omega
    rw [this, ih]

/-- Continuation bytes, read back from stray elements, are themselves. -/
theorem utf8Bytes_strayBytes (bytes : List Nat) (h : ∀ b ∈ bytes, 0x80 ≤ b ∧ b < 0xC0) :
    utf8Bytes (strayBytes bytes) = bytes := by
  induction bytes with
  | nil => rfl
  | cons b bs ih =>
    have hb := h b (by simp)
    have hbs := ih (fun x hx => h x (by simp [hx]))
    unfold strayBytes at hbs ⊢
    rw [List.map_cons, utf8Bytes, hbs]
    show [0x80 + (b - 0x80) % 64] ++ bs = b :: bs
    have : 0x80 + (b - 0x80) % 64 = b := by omega
    rw [this]
    rfl

/-- Every byte of an element after its first is a continuation byte. -/
theorem bytesOf_drop_continuation (u : GoChar) (n : Nat) (hn : 0 < n) :
    ∀ b ∈ (bytesOf u).drop n, 0x80 ≤ b ∧ b < 0xC0 := by
  obtain ⟨m, rfl⟩ : ∃ m, n = m + 1 := ⟨n - 1, by omega⟩
  intro b hb
  cases u with
  | stray k => simp [bytesOf] at hb
  | rune c =>
    simp only [bytesOf] at hb
    unfold utf8EncodeChar at hb
    split_ifs at hb <;>
      simp only [List.drop_succ_cons, List.drop_nil, List.not_mem_nil] at hb <;>
      have hmem := List.mem_of_mem_drop hb <;>
      simp only [List.mem_cons, List.mem_singleton, List.not_mem_nil, or_false] at hmem <;>
      omega

/-- The slice is the one of Go: out of range exactly when the offset exceeds
the length in bytes, and otherwise the bytes of the result are the bytes of
the string from the offset on. -/
theorem sliceFrom_bytes (s : Str) (n : Nat) :
    (len s < n → sliceFrom s n = Slice.outOfRange) ∧
    (n ≤ len s →
      ∃ rest, sliceFrom s n = Slice.ok rest ∧ utf8Bytes rest = (utf8Bytes s).drop n) := by
  induction s generalizing n with
  | nil =>
    refine ⟨fun h => ?_, fun h => ?_⟩
    · have h0 : n ≠ 0 := by
        simp only [len, utf8Bytes, List.length_nil] at h
        omega
      simp [sliceFrom, h0]
    · have h0 : n = 0 := by
        simp only [len, utf8Bytes, List.length_nil] at h
        omega
      exact ⟨[], by simp [sliceFrom, h0], by simp [utf8Bytes]⟩
  | cons u us ih =>
    have hpos := utf8Len_pos u
    rw [len_cons]
    by_cases h0 : n = 0
    · subst h0
      exact ⟨fun h => by omega, fun _ => ⟨u :: us, sliceFrom_zero _, rfl⟩⟩
    · by_cases hle : utf8Len u ≤ n
      · have hstep : sliceFrom (u :: us) n = sliceFrom us (n - utf8Len u) := by
          rw [sliceFrom, if_neg h0, if_pos hle]
        rw [hstep]
        refine ⟨fun h => (ih (n - utf8Len u)).1 (by omega), fun h => ?_⟩
        obtain ⟨rest, h1, h2⟩ := (ih (n - utf8Len u)).2 (by omega)
        refine ⟨rest, h1, ?_⟩
        rw [h2, utf8Bytes, List.drop_append_eq_append_drop]
        have hd : List.drop n (bytesOf u) = [] := List.drop_eq_nil_of_le hle
        rw [hd]
        rfl
      · have hstep : sliceFrom (u :: us) n
            = Slice.ok (strayBytes ((bytesOf u).drop n) ++ us) := by
          rw [sliceFrom, if_neg h0, if_neg hle]
        rw [hstep]
        refine ⟨fun h => by omega, fun _ => ⟨_, rfl, ?_⟩⟩
        rw [utf8Bytes_append,
          utf8Bytes_strayBytes _ (bytesOf_drop_continuation u n (by omega)),
          utf8Bytes, List.drop_append_of_le_length (by unfold utf8Len at hle; omega)]

theorem afterFirstByte_ascii (c : Char) (hc : c.toNat < 128) : afterFirstByte (rune c) = [] := by
  simp only [afterFirstByte, bytesOf]
  unfold utf8EncodeChar
  simp [hc, strayBytes]

/-- A slice one byte past a prefix drops the first byte of the element that
follows the prefix. -/
theorem sliceFrom_one_past (pre : Str) (u : GoChar) (rest : Str) :
    sliceFrom (pre ++ u :: rest) (len pre + 1) = Slice.ok (afterFirstByte u ++ rest) := by
  rw [sliceFrom_append_add, sliceFrom, if_neg (by omega)]
  by_cases hle : utf8Len u ≤ 1
  · rw [if_pos hle]
    have h1 : utf8Len u = 1 := by
      have := utf8Len_pos u
      omega
    have hd : (bytesOf u).drop 1 = [] := List.drop_eq_nil_of_le (by unfold utf8Len at h1; omega)
    rw [h1, Nat.sub_self, sliceFrom_zero]
    unfold afterFirstByte
    rw [hd]
    rfl
  · rw [if_neg hle]
    rfl

theorem firstLine_append_break (l rest : Str) (h : (rune '\n') ∉ l) :
    firstLine (l ++ (rune '\n') :: rest) = l := by
  unfold firstLine
  induction l with
  | nil => simp
  | cons c l ih =>
    have hc : c ≠ (rune '\n') := fun e => h (by simp [e])
    have hl : (rune '\n') ∉ l := fun e => h (by simp [e])
    simp [List.takeWhile_cons, hc, ih hl]

theorem firstLine_of_no_break (l : Str) (h : (rune '\n') ∉ l) : firstLine l = l := by
  unfold firstLine
  rw [List.takeWhile_eq_self_iff]
  intro c hc
  have : c ≠ (rune '\n') := fun e => h (e ▸ hc)
  simpa using this

/-- Blank fragments are skipped by the loop. -/
theorem createSwaggerLoop_blanks (yaml : Str → YamlResult) (swagger : Swagger)
    (blanks rest : List Str) (hb : ∀ b ∈ blanks, TrimSpace b = []) :
    createSwaggerLoop yaml swagger (blanks ++ rest) = createSwaggerLoop yaml swagger rest := by
  induction blanks with
  | nil => rfl
  | cons b bs ih =>
    have h1 : TrimSpace b = [] := hb b (by simp)
    rw [List.cons_append, createSwaggerLoop]
    simp only [createSwaggerStep, h1, if_true]
    exact ih (fun x hx => hb x (by simp [hx]))

/-- The operation case on a part whose header, after the directive and one
character, has fewer than three tokens: the error of `CreateOperation`. -/
theorem classifyAndMerge_short_operation (swagger : Swagger) (c : Char) (hdr tail : Str)
    (hc : c.toNat < 128) (ht : (Fields (firstLine (hdr ++ tail))).length < 3) :
    classifyAndMerge swagger ((lit "swagger:operation") ++ rune c :: hdr ++ tail)
      = Sum.inr (Outcome.returned [] (some (Error.invalidOperationPart (hdr ++ tail)))) := by
  have h1 : HasPrefix ((lit "swagger:operation") ++ rune c :: hdr ++ tail) (lit "swagger:main")
      = false := by
    simp [HasPrefix]
  have h2 : HasPrefix ((lit "swagger:operation") ++ rune c :: hdr ++ tail) (lit "swagger:operation")
      = true :=
    (hasPrefix_iff _ _).2 ⟨rune c :: hdr ++ tail, by simp⟩
  have hlen : len (lit "swagger:operation") + 1 = len ((lit "swagger:operation") ++ [rune c]) := by
    rw [len_append, len_cons]
    have : utf8Len (rune c) = 1 := by
      simp only [utf8Len, bytesOf]
      unfold utf8EncodeChar
      simp [hc]
    rw [this]
    rfl
  have hslice : sliceFrom ((lit "swagger:operation") ++ rune c :: hdr ++ tail)
      (len (lit "swagger:operation") + 1) = Slice.ok (hdr ++ tail) := by
    rw [hlen]
    have : (lit "swagger:operation") ++ rune c :: hdr ++ tail
        = ((lit "swagger:operation") ++ [rune c]) ++ (hdr ++ tail) := by simp
    rw [this, sliceFrom_append]
  unfold classifyAndMerge
  rw [h1, h2]
  simp only [Bool.false_eq_true, if_false, if_true, mergePart, hslice]
  rw [createOperation_err swagger (hdr ++ tail) ht]

theorem createSwaggerStep_short_operation (yaml : Str → YamlResult) (swagger : Swagger)
    (c : Char) (hdr payload : Str) (hc : c.toNat < 128) (hcn : c ≠ '\n') (hh : (rune '\n') ∉ hdr)
    (ht : (Fields hdr).length < 3) :
    ∃ err, createSwaggerStep yaml swagger
        ((lit "swagger:operation") ++ rune c :: hdr ++ (rune '\n') :: payload)
      = Sum.inr (Outcome.returned [] (some err)) := by
  have hfirst : (rune '\n') ∉ (lit "swagger:operation") ++ rune c :: hdr := by
    intro hmem
    rcases List.mem_append.1 hmem with h1 | h1
    · exact absurd h1 (by decide)
    · rcases List.mem_cons.1 h1 with h2 | h2
      · exact hcn (by injection h2 with h3; exact h3.symm)
      · exact hh h2
  have hnb : TrimSpace ((lit "swagger:operation") ++ rune c :: hdr ++ (rune '\n') :: payload) ≠ [] := by
    intro h0
    have := (trimSpace_eq_nil_iff _).1 h0 (rune 's') (by simp)
    exact absurd this (by decide)
  unfold createSwaggerStep
  rw [if_neg hnb]
  unfold validateAndTrimYAML
  rw [splitN2_append_sep _ payload (rune '\n') hfirst]
  simp only
  by_cases hp : TrimSpace payload = []
  · rw [if_pos hp]
    have h := classifyAndMerge_short_operation swagger c hdr [] hc
      (by rw [List.append_nil, firstLine_of_no_break hdr hh]; exact ht)
    rw [List.append_nil] at h
    exact ⟨_, h⟩
  · rw [if_neg hp]
    cases yaml payload with
    | parseError => exact ⟨_, rfl⟩
    | marshalError => exact ⟨_, rfl⟩
    | formatted f =>
      have h := classifyAndMerge_short_operation swagger c hdr ((rune '\n') :: f) hc
        (by rw [firstLine_append_break hdr f hh]; exact ht)
      refine ⟨Error.invalidOperationPart (hdr ++ (rune '\n') :: f), ?_⟩
      simp only
      rw [← h]
      congr 1
      simp

/-- Scenario C of the specification, in general: when the first fragment that
is not blank is the operation directive, one more single-byte character, and a
header of fewer than three tokens, `createSwagger` returns an error and the
empty text, whatever the payload and the fragments that follow. -/
theorem createSwagger_short_operation_header (yaml : Str → YamlResult)
    (validateSwagger : Str → Option Error) (rangeOps rangeComps : GoMap → GoMap)
    (blanks : List Str) (c : Char) (hdr payload : Str) (rest : List Str)
    (hb : ∀ b ∈ blanks, TrimSpace b = []) (hc : c.toNat < 128) (hcn : c ≠ '\n')
    (hh : (rune '\n') ∉ hdr) (ht : (Fields hdr).length < 3) :
    ∃ err, createSwagger yaml validateSwagger rangeOps rangeComps
        (blanks ++ ((lit "swagger:operation") ++ rune c :: hdr ++ (rune '\n') :: payload) :: rest)
      = Outcome.returned [] (some err) := by
  obtain ⟨err, herr⟩ := createSwaggerStep_short_operation yaml NewSwagger c hdr payload hc hcn hh ht
  refine ⟨err, ?_⟩
  unfold createSwagger
  rw [createSwaggerLoop_blanks yaml NewSwagger blanks _ hb, createSwaggerLoop, herr]

/-! ## Classification by prefix (C11) -/

/-- After a directive and one more element, the slice drops the first byte of
that element and the merge method is applied to what is left. -/
theorem mergePart_after_directive (create : Str → Swagger × Option Error)
    (directive : Str) (u : GoChar) (rest : Str) :
    mergePart create directive (directive ++ u :: rest)
      = afterCreate (create (afterFirstByte u ++ rest)) := by
  unfold mergePart afterCreate
  rw [sliceFrom_one_past]

theorem createSwaggerStep_of_trimmed (yaml : Str → YamlResult) (swagger : Swagger)
    (frag trimmed : Str) (hnb : TrimSpace frag ≠ [])
    (hv : validateAndTrimYAML yaml frag = Except.ok trimmed) :
    createSwaggerStep yaml swagger frag = classifyAndMerge swagger trimmed := by
  unfold createSwaggerStep
  rw [if_neg hnb, hv]

/-- C11, the claim as stated fails: the first token of the two fragments below
is `swagger:operations` and `swagger:mainX`, not a directive; the loop of
`createSwagger` merges the first as an operation and the second as a main
section, and with a validator that accepts the text `createSwagger` returns the
document with the operation. No unknown directive is reported. -/
theorem createSwagger_merges_longer_first_token :
    createSwaggerLoop (fun _ => YamlResult.parseError) NewSwagger
        [(lit "swagger:operations GET /x id\n")]
      = Sum.inl (Swagger.mk false [] [((lit "/x"), (lit "  GET:\n    operationId: id\n"))] []) ∧
    createSwaggerLoop (fun _ => YamlResult.parseError) NewSwagger [(lit "swagger:mainX\n")]
      = Sum.inl (Swagger.mk true [] [] []) ∧
    createSwagger (fun _ => YamlResult.parseError) (fun _ => none) id id
        [(lit "swagger:operations GET /x id\n")]
      = Outcome.returned (lit "\npaths:\n  /x:\n      GET:\n        operationId: id\n") none := by
  decide

/-- C11, amended: for a fragment that is not blank and that
`validateAndTrimYAML` accepts with the text `trimmed`, the loop of
`createSwagger` classifies by prefix. When `trimmed` is `swagger:main`,
`swagger:operation` or `swagger:components` followed by anything at all, the
first byte after the directive is dropped, whatever it is (a single-byte
character goes altogether, of a multi-byte character the continuation bytes
stay), and what is left is merged by `CreateMain`, `CreateOperation` or
`CreateComponents`. When `trimmed` begins with none of the three, the process
exits in `log.Fatal` with `Unknown part: ` and the text, and nothing is
merged. -/
theorem createSwaggerStep_prefix_classification (yaml : Str → YamlResult) (swagger : Swagger)
    (frag trimmed : Str) (hnb : TrimSpace frag ≠ [])
    (hv : validateAndTrimYAML yaml frag = Except.ok trimmed) :
    (∀ u rest, trimmed = (lit "swagger:main") ++ u :: rest →
      createSwaggerStep yaml swagger frag
        = afterCreate (swagger.CreateMain (afterFirstByte u ++ rest))) ∧
    (∀ u rest, trimmed = (lit "swagger:operation") ++ u :: rest →
      createSwaggerStep yaml swagger frag
        = afterCreate (swagger.CreateOperation (afterFirstByte u ++ rest))) ∧
    (∀ u rest, trimmed = (lit "swagger:components") ++ u :: rest →
      createSwaggerStep yaml swagger frag
        = afterCreate (swagger.CreateComponents (afterFirstByte u ++ rest))) ∧
    (∀ c : Char, c.toNat < 128 → afterFirstByte (rune c) = []) ∧
    (HasPrefix trimmed (lit "swagger:main") = false →
      HasPrefix trimmed (lit "swagger:operation") = false →
      HasPrefix trimmed (lit "swagger:components") = false →
      createSwaggerStep yaml swagger frag
        = Sum.inr (Outcome.fatal ((lit "Unknown part: ") ++ trimmed))) := by
  rw [createSwaggerStep_of_trimmed yaml swagger frag trimmed hnb hv]
  refine ⟨?_, ?_, ?_, afterFirstByte_ascii, ?_⟩
  · rintro u rest rfl
    have h1 : HasPrefix ((lit "swagger:main") ++ u :: rest) (lit "swagger:main") = true :=
      (hasPrefix_iff _ _).2 ⟨u :: rest, rfl⟩
    unfold classifyAndMerge
    rw [if_pos h1, mergePart_after_directive _ _ u rest]
  · rintro u rest rfl
    have h1 : HasPrefix ((lit "swagger:operation") ++ u :: rest) (lit "swagger:main")
        = false := by simp [HasPrefix]
    have h2 : HasPrefix ((lit "swagger:operation") ++ u :: rest) (lit "swagger:operation")
        = true := (hasPrefix_iff _ _).2 ⟨u :: rest, rfl⟩
    unfold classifyAndMerge
    rw [h1, h2]
    simp only [Bool.false_eq_true, if_false, if_true]
    exact mergePart_after_directive _ _ u rest
  · rintro u rest rfl
    have h1 : HasPrefix ((lit "swagger:components") ++ u :: rest) (lit "swagger:main")
        = false := by simp [HasPrefix]
    have h2 : HasPrefix ((lit "swagger:components") ++ u :: rest) (lit "swagger:operation")
        = false := by simp [HasPrefix]
    have h3 : HasPrefix ((lit "swagger:components") ++ u :: rest) (lit "swagger:components")
        = true := (hasPrefix_iff _ _).2 ⟨u :: rest, rfl⟩
    unfold classifyAndMerge
    rw [h1, h2, h3]
    simp only [Bool.false_eq_true, if_false, if_true]
    exact mergePart_after_directive _ _ u rest
  · intro h1 h2 h3
    unfold classifyAndMerge
    rw [h1, h2, h3]
    simp

/-- Witness of C11 (amended): the fragment `swagger:operations GET /x id`; the
`s` after the directive is dropped and ` GET /x id` is merged. -/
theorem createSwaggerStep_prefix_classification_witness :
    createSwaggerStep (fun _ => YamlResult.parseError) NewSwagger
        (lit "swagger:operations GET /x id\n")
      = afterCreate (NewSwagger.CreateOperation (lit " GET /x id")) :=
  (createSwaggerStep_prefix_classification (fun _ => YamlResult.parseError) NewSwagger
    (lit "swagger:operations GET /x id\n") (lit "swagger:operations GET /x id")
    (by decide) rfl).2.1 (rune 's') (lit " GET /x id") (by decide)

/-- A multi-byte character after the directive. Of `é` (the bytes `C3 A9`) the
slice drops `C3`: `CreateMain` stores the byte `A9` and `createSwagger` goes on
to `String` and returns. Of `€` (the bytes `E2 82 AC`) the bytes `82 AC` stay
in front of the header, where they are part of its first token. -/
theorem createSwagger_multi_byte_after_directive :
    sliceFrom (lit "swagger:mainé") (len (lit "swagger:main") + 1) = Slice.ok [stray 41] ∧
    createSwaggerLoop (fun _ => YamlResult.parseError) NewSwagger [lit "swagger:mainé\n"]
      = Sum.inl (Swagger.mk true [stray 41] [] []) ∧
    createSwagger (fun _ => YamlResult.parseError) (fun _ => none) id id
        [lit "swagger:mainé\n"]
      = Outcome.returned [stray 41] none ∧
    createSwaggerLoop (fun _ => YamlResult.parseError) NewSwagger
        [lit "swagger:operation€GET /a b\n"]
      = Sum.inl (Swagger.mk false []
          [(lit "/a", lit "  " ++ [stray 2, stray 44] ++ lit "GET:\n    operationId: b\n")]
          []) := by
  decide

/-! ## A payload the YAML library rejects (C12) -/

theorem createSwaggerLoop_append_ok (yaml : Str → YamlResult) (swagger next : Swagger)
    (earlier rest : List Str) (h : createSwaggerLoop yaml swagger earlier = Sum.inl next) :
    createSwaggerLoop yaml swagger (earlier ++ rest) = createSwaggerLoop yaml next rest := by
  induction earlier generalizing swagger with
  | nil =>
    simp only [createSwaggerLoop, Sum.inl.injEq] at h
    rw [h]
    rfl
  | cons part parts ih =>
    rw [List.cons_append, createSwaggerLoop]
    rw [createSwaggerLoop] at h
    cases hstep : createSwaggerStep yaml swagger part with
    | inl mid =>
      rw [hstep] at h
      exact ih mid h
    | inr outcome =>
      rw [hstep] at h
      simp at h

theorem validateAndTrimYAML_rejected (yaml : Str → YamlResult) (first payload : Str)
    (hf : (rune '\n') ∉ first) (hp : TrimSpace payload ≠ []) (hy : yaml payload = YamlResult.parseError) :
    validateAndTrimYAML yaml (first ++ (rune '\n') :: payload) = Except.error (Error.invalidYAML payload) := by
  unfold validateAndTrimYAML
  rw [splitN2_append_sep first payload (rune '\n') hf]
  simp only
  rw [if_neg hp, hy]

/-- C12: when the fragments before it are processed without error, a fragment
with a payload (the text after its first line) that is not blank and that the
YAML library rejects ends the loop of `createSwagger` (so neither `String` nor
the validator is reached), and `createSwagger` returns the empty text and the
error `invalid YAML` carrying the payload, for every validator and iteration
order and whatever fragments follow. -/
theorem createSwagger_rejected_payload (yaml : Str → YamlResult)
    (validateSwagger : Str → Option Error) (rangeOps rangeComps : GoMap → GoMap)
    (earlier : List Str) (swagger : Swagger) (first payload : Str) (rest : List Str)
    (he : createSwaggerLoop yaml NewSwagger earlier = Sum.inl swagger)
    (hf : (rune '\n') ∉ first) (hp : TrimSpace payload ≠ [])
    (hy : yaml payload = YamlResult.parseError) :
    createSwaggerLoop yaml NewSwagger (earlier ++ (first ++ (rune '\n') :: payload) :: rest)
      = Sum.inr (Outcome.returned [] (some (Error.wrapped (Error.invalidYAML payload)))) ∧
    createSwagger yaml validateSwagger rangeOps rangeComps
        (earlier ++ (first ++ (rune '\n') :: payload) :: rest)
      = Outcome.returned [] (some (Error.wrapped (Error.invalidYAML payload))) := by
  have hnb : TrimSpace (first ++ (rune '\n') :: payload) ≠ [] := by
    intro h0
    apply hp
    rw [trimSpace_eq_nil_iff] at h0 ⊢
    intro c hc
    exact h0 c (by simp [hc])
  have hstep : createSwaggerStep yaml swagger (first ++ (rune '\n') :: payload)
      = Sum.inr (Outcome.returned [] (some (Error.wrapped (Error.invalidYAML payload)))) := by
    unfold createSwaggerStep
    rw [if_neg hnb, validateAndTrimYAML_rejected yaml first payload hf hp hy]
  have hloop : createSwaggerLoop yaml NewSwagger (earlier ++ (first ++ (rune '\n') :: payload) :: rest)
      = Sum.inr (Outcome.returned [] (some (Error.wrapped (Error.invalidYAML payload)))) := by
    rw [createSwaggerLoop_append_ok yaml NewSwagger swagger earlier _ he, createSwaggerLoop, hstep]
  refine ⟨hloop, ?_⟩
  unfold createSwagger
  rw [hloop]

/-- Witness of C12: an operation fragment without payload, then a main
fragment whose payload, an opening brace, the YAML library rejects. -/
theorem createSwagger_rejected_payload_witness :
    createSwagger (fun _ => YamlResult.parseError) (fun _ => none) id id
        ([(lit "swagger:operation GET /a b\n")] ++ ((lit "swagger:main") ++ (rune '\n') :: (lit "\x7b"))
          :: [(lit "swagger:components schemas\n")])
      = Outcome.returned [] (some (Error.wrapped (Error.invalidYAML (lit "\x7b")))) :=
  (createSwagger_rejected_payload (fun _ => YamlResult.parseError) (fun _ => none) id id
    [(lit "swagger:operation GET /a b\n")]
    (Swagger.mk false [] [((lit "/a"), (lit "  GET:\n    operationId: b\n"))] [])
    (lit "swagger:main") (lit "\x7b") [(lit "swagger:components schemas\n")]
    (by decide) (by decide) (by decide) rfl).2

/-! ## The result of `createSwagger` (C13) -/

theorem afterCreate_inr (r : Swagger × Option Error) (o : Outcome)
    (h : afterCreate r = Sum.inr o) : ∃ err, o = Outcome.returned [] (some err) := by
  obtain ⟨st, e⟩ := r
  cases e with
  | none => simp [afterCreate] at h
  | some err =>
    simp only [afterCreate, Sum.inr.injEq] at h
    exact ⟨err, h.symm⟩

theorem mergePart_inr (create : Str → Swagger × Option Error) (directive part : Str)
    (o : Outcome) (h : mergePart create directive part = Sum.inr o) :
    ∀ text err, o = Outcome.returned text err → text = [] ∧ err ≠ none := by
  unfold mergePart at h
  intro text err ho
  subst ho
  cases hs : sliceFrom part (len directive + 1) with
  | outOfRange => rw [hs] at h; simp at h
  | ok rest =>
    rw [hs] at h
    simp only at h
    obtain ⟨e, he⟩ := afterCreate_inr (create rest) _ (by unfold afterCreate; exact h)
    simp only [Outcome.returned.injEq] at he
    exact ⟨he.1, by rw [he.2]; simp⟩

/-- When the loop of `createSwagger` ends the function and the function
returns, it returns the empty text and an error. -/
theorem createSwaggerStep_inr (yaml : Str → YamlResult) (swagger : Swagger) (part : Str)
    (o : Outcome) (h : createSwaggerStep yaml swagger part = Sum.inr o) :
    ∀ text err, o = Outcome.returned text err → text = [] ∧ err ≠ none := by
  unfold createSwaggerStep at h
  split at h
  · simp at h
  · split at h
    · simp only [Sum.inr.injEq] at h
      intro text err ho
      rw [← h] at ho
      simp only [Outcome.returned.injEq] at ho
      exact ⟨ho.1.symm, by rw [← ho.2]; simp⟩
    · unfold classifyAndMerge at h
      split at h
      · exact mergePart_inr _ _ _ o h
      · split at h
        · exact mergePart_inr _ _ _ o h
        · split at h
          · exact mergePart_inr _ _ _ o h
          · simp only [Sum.inr.injEq] at h
            intro text err ho
            rw [← h] at ho
            simp at ho

theorem createSwaggerLoop_inr (yaml : Str → YamlResult) (swagger : Swagger) (parts : List Str)
    (o : Outcome) (h : createSwaggerLoop yaml swagger parts = Sum.inr o) :
    ∀ text err, o = Outcome.returned text err → text = [] ∧ err ≠ none := by
  induction parts generalizing swagger with
  | nil => simp [createSwaggerLoop] at h
  | cons part parts ih =>
    rw [createSwaggerLoop] at h
    cases hstep : createSwaggerStep yaml swagger part with
    | inl mid =>
      rw [hstep] at h
      exact ih mid h
    | inr outcome =>
      rw [hstep] at h
      simp only [Sum.inr.injEq] at h
      rw [← h]
      exact createSwaggerStep_inr yaml swagger part outcome hstep

/-- C13: for every fragment list, when `createSwagger` returns a nil error, the
loop has run to its end, the text returned is `String()` of the assembled
Swagger, and the validator accepts that text; when `createSwagger` returns a
non-nil error, the text returned is empty. -/
theorem createSwagger_returns_validated_or_empty (yaml : Str → YamlResult)
    (validateSwagger : Str → Option Error) (rangeOps rangeComps : GoMap → GoMap)
    (parts : List Str) :
    (∀ text, createSwagger yaml validateSwagger rangeOps rangeComps parts
        = Outcome.returned text none →
      ∃ swagger, createSwaggerLoop yaml NewSwagger parts = Sum.inl swagger ∧
        text = swagger.String (rangeOps swagger.operations) (rangeComps swagger.components) ∧
        validateSwagger text = none) ∧
    (∀ text err, createSwagger yaml validateSwagger rangeOps rangeComps parts
        = Outcome.returned text (some err) → text = []) := by
  unfold createSwagger
  cases hloop : createSwaggerLoop yaml NewSwagger parts with
  | inr o =>
    have hin := createSwaggerLoop_inr yaml NewSwagger parts o hloop
    constructor
    · intro text h
      exact absurd rfl (hin text none h).2
    · intro text err h
      exact (hin text (some err) h).1
  | inl swagger =>
    simp only
    cases hval : validateSwagger
        (swagger.String (rangeOps swagger.operations) (rangeComps swagger.components)) with
    | some e =>
      constructor
      · intro text h
        simp at h
      · intro text err h
        simp only [Outcome.returned.injEq] at h
        exact h.1.symm
    | none =>
      constructor
      · intro text h
        simp only [Outcome.returned.injEq, and_true] at h
        refine ⟨swagger, rfl, h.symm, ?_⟩
        rw [← h]
        exact hval
      · intro text err h
        simp at h

/-- Witness of C13: a main fragment and an operation fragment, a YAML library
that writes a payload back as it is, a validator that accepts every text. -/
theorem createSwagger_returns_validated_or_empty_witness :
    ∃ swagger,
      createSwaggerLoop (fun t => YamlResult.formatted t) NewSwagger
          [(lit "swagger:main\ninfo: x\n"), (lit "swagger:operation GET /a b\n")]
        = Sum.inl swagger ∧
      (lit "info: x\n\npaths:\n  /a:\n      GET:\n        operationId: b\n")
        = swagger.String (id swagger.operations) (id swagger.components) ∧
      (fun _ => (none : Option Error))
        (lit "info: x\n\npaths:\n  /a:\n      GET:\n        operationId: b\n") = none :=
  (createSwagger_returns_validated_or_empty (fun t => YamlResult.formatted t) (fun _ => none)
    id id [(lit "swagger:main\ninfo: x\n"), (lit "swagger:operation GET /a b\n")]).1
    (lit "info: x\n\npaths:\n  /a:\n      GET:\n        operationId: b\n") (by decide)

/-! ## Tokens after the third (C14) -/

/-- C14: when the header of `part1` has the tokens `m p id` followed by any
further tokens, the header of `part2` has exactly the tokens `m p id`, and both
parts have the same payload lines, `CreateOperation` on `part1` and on `part2`
return the same state and no error: the state in which the content stored
under `p` has grown by the method line of `m`, the line `operationId:` with the
third token `id`, and the payload lines. -/
theorem createOperation_ignores_later_tokens (s : Swagger) (part1 part2 m p id : Str)
    (tags : List Str) (h1 : headerOf part1 = m :: p :: id :: tags)
    (h2 : headerOf part2 = [m, p, id]) (hp : payloadOf part1 = payloadOf part2) :
    s.CreateOperation part1 = s.CreateOperation part2 ∧
    s.CreateOperation part1
      = ({ s with operations := (mergeContent s.operations p
            (unlines (((lit "  ") ++ m ++ (lit ":")) :: ((lit "    operationId: ") ++ id)
              :: (payloadOf part1).map
                  (fun line => (lit "    ") ++ ReplaceAll line (rune '\t') (lit "    "))))) }, none) := by
  rw [createOperation_ok s part1 m p id tags h1, createOperation_ok s part2 m p id [] h2, hp,
    operationContent_eq_unlines]
  exact ⟨rfl, rfl⟩

/-- Witness of C14: a header with two tags after the operation id. -/
theorem createOperation_ignores_later_tokens_witness :
    NewSwagger.CreateOperation (lit "GET /a id t1 t2\nx: 1")
      = NewSwagger.CreateOperation (lit "GET  /a\tid\nx: 1") :=
  (createOperation_ignores_later_tokens NewSwagger (lit "GET /a id t1 t2\nx: 1")
    (lit "GET  /a\tid\nx: 1") (lit "GET") (lit "/a") (lit "id")
    [(lit "t1"), (lit "t2")] (by decide) (by decide) (by decide)).1

/-! ## Indentation of a rendered operation (C15) -/

theorem fields_token (t : Str) (ht : IsToken t) : Fields t = [t] := by
  obtain ⟨hne, hsp⟩ := ht
  induction t with
  | nil => exact absurd rfl hne
  | cons c t ih =>
    have hc : isSpace c = false := hsp c (by simp)
    cases t with
    | nil => exact fields_single c hc
    | cons d t2 =>
      have hd : isSpace d = false := hsp d (by simp)
      rw [fields_cons_before_token c d t2 hc hd,
        ih (by simp) (fun x hx => hsp x (by simp [List.mem_cons.1 hx]))]
      rfl

theorem fields_token_space (t rest : Str) (ht : IsToken t) :
    Fields (t ++ (rune ' ') :: rest) = t :: Fields rest := by
  obtain ⟨hne, hsp⟩ := ht
  induction t with
  | nil => exact absurd rfl hne
  | cons c t ih =>
    have hc : isSpace c = false := hsp c (by simp)
    cases t with
    | nil =>
      rw [List.cons_append, List.nil_append, fields_cons_before_space c (rune ' ') rest hc (by decide),
        fields_cons_space (rune ' ') rest (by decide)]
    | cons d t2 =>
      have hd : isSpace d = false := hsp d (by simp)
      rw [List.cons_append, List.cons_append, fields_cons_before_token c d _ hc hd,
        ← List.cons_append,
        ih (by simp) (fun x hx => hsp x (by simp [List.mem_cons.1 hx]))]
      rfl

theorem split_of_no_sep (l : Str) (sep : GoChar) (h : sep ∉ l) : Split l sep = [l] := by
  induction l with
  | nil => rfl
  | cons c l ih =>
    have hc : c ≠ sep := fun e => h (by simp [e])
    have hl : sep ∉ l := fun e => h (by simp [e])
    rw [split_cons_ne c l sep hc, ih hl]
    rfl

theorem split_header_payload (header : Str) (payload : List Str) (hh : (rune '\n') ∉ header)
    (hl : ∀ l ∈ payload, (rune '\n') ∉ l) :
    Split (header ++ payload.flatMap (fun line => (lit "\n") ++ line)) (rune '\n')
      = header :: payload := by
  induction payload generalizing header with
  | nil =>
    rw [List.flatMap_nil, List.append_nil]
    exact split_of_no_sep header (rune '\n') hh
  | cons l ls ih =>
    have h1 : header ++ (l :: ls).flatMap (fun line => (lit "\n") ++ line)
        = header ++ (rune '\n') :: (l ++ ls.flatMap (fun line => (lit "\n") ++ line)) := by
      rw [List.flatMap_cons]
      rfl
    rw [h1, split_append_sep header _ (rune '\n') hh,
      ih l (hl l (by simp)) (fun x hx => hl x (by simp [hx]))]

theorem unlines_map_eq_flatMap (ls : List Str) (f : Str → Str) :
    unlines (ls.map f) = ls.flatMap (fun l => f l ++ (lit "\n")) := by
  induction ls with
  | nil => rfl
  | cons l ls ih => rw [List.map_cons, unlines, ih, List.flatMap_cons]

theorem operationPart_header (m p id : Str) (payload : List Str)
    (hm : IsToken m) (hp : IsToken p) (hid : IsToken id) (hl : ∀ l ∈ payload, (rune '\n') ∉ l) :
    headerOf (operationPart m p id payload) = [m, p, id] ∧
    payloadOf (operationPart m p id payload) = payload := by
  have hh : (rune '\n') ∉ m ++ (lit " ") ++ p ++ (lit " ") ++ id := by
    intro hc
    simp only [List.mem_append] at hc
    rcases hc with ((((h | h) | h) | h) | h)
    · exact token_no_break m hm h
    · exact absurd h (by decide)
    · exact token_no_break p hp h
    · exact absurd h (by decide)
    · exact token_no_break id hid h
  have hsplit := split_header_payload _ payload hh hl
  constructor
  · unfold headerOf
    rw [← split_headD_firstLine]
    unfold operationPart
    rw [hsplit, List.headD_cons]
    have : m ++ (lit " ") ++ p ++ (lit " ") ++ id = m ++ (rune ' ') :: (p ++ (rune ' ') :: id) := by
      simp [List.append_assoc]
    rw [this, fields_token_space m _ hm, fields_token_space p _ hp, fields_token id hid]
  · unfold payloadOf operationPart
    rw [hsplit]
    rfl

/-- The lines written for the part `m p id` with payload lines that are not
blank and hold no tab. -/
theorem operationLines_operationPart (m p id : Str) (payload : List Str)
    (hm : IsToken m) (hp : IsToken p) (hid : IsToken id)
    (hl : ∀ line ∈ payload, (rune '\n') ∉ line ∧ (rune '\t') ∉ line ∧ nonBlank line = true) :
    operationLines (operationPart m p id payload)
      = ((lit "      ") ++ m ++ (lit ":")) :: ((lit "        operationId: ") ++ id)
          :: payload.map (fun line => (lit "        ") ++ line) := by
  obtain ⟨hh, hpay⟩ := operationPart_header m p id payload hm hp hid (fun l h => (hl l h).1)
  have h1 : methodOf (operationPart m p id payload) = m := by simp [methodOf, hh]
  have h2 : thirdTokenOf (operationPart m p id payload) = id := by simp [thirdTokenOf, hh]
  unfold operationLines
  rw [h1, h2, hpay, List.filter_eq_self.2 (fun l h => (hl l h).2.2)]
  congr 2
  exact List.map_congr_left (fun l h => by rw [replaceAll_of_not_mem l _ (rune '\t') (hl l h).2.1])

/-- C15: for the empty Swagger and the part `m p id` followed by payload lines
that are not blank and hold no tab, for every iteration order, `CreateOperation`
then `String()` returns the line break, `paths:`, the path key behind two
spaces, the method key behind six, `operationId:` with `id` behind eight, and
each payload line behind eight spaces, each followed by a line break; so every
line under the path key begins with six spaces. -/
theorem rendered_operation_is_indented (m p id : Str) (payload : List Str)
    (opsIter compsIter : GoMap) (hm : IsToken m) (hp : IsToken p) (hid : IsToken id)
    (hl : ∀ line ∈ payload, (rune '\n') ∉ line ∧ (rune '\t') ∉ line ∧ nonBlank line = true)
    (ho : opsIter.Perm (NewSwagger.CreateOperation (operationPart m p id payload)).1.operations) :
    (NewSwagger.CreateOperation (operationPart m p id payload)).1.String opsIter compsIter
        = (lit "\npaths:\n  ") ++ p ++ (lit ":\n      ") ++ m
            ++ (lit ":\n        operationId: ") ++ id ++ (lit "\n")
            ++ payload.flatMap (fun line => (lit "        ") ++ line ++ (lit "\n")) ∧
    ∃ body,
      Split ((NewSwagger.CreateOperation (operationPart m p id payload)).1.String
          opsIter compsIter) (rune '\n')
        = [] :: (lit "paths:") :: ((lit "  ") ++ p ++ (lit ":")) :: body ++ [[]] ∧
      ∀ line ∈ body, ∃ r, line = (lit "      ") ++ r := by
  obtain ⟨hh, hpay⟩ := operationPart_header m p id payload hm hp hid (fun l h => (hl l h).1)
  have h1 : methodOf (operationPart m p id payload) = m := by simp [methodOf, hh]
  have h2 : thirdTokenOf (operationPart m p id payload) = id := by simp [thirdTokenOf, hh]
  have hstate : (NewSwagger.CreateOperation (operationPart m p id payload)).1
      = Swagger.mk false [] [(p, operationContent m id payload)] [] := by
    rw [createOperation_ok NewSwagger _ m p id [] hh, hpay]
    rfl
  have hcl : contentLines (operationContent m id payload)
      = operationLines (operationPart m p id payload) := by
    have := contentLines_operations [operationPart m p id payload]
      (fun part hpart => by
        have : part = operationPart m p id payload := by simpa using hpart
        subst this
        rw [h1, h2]
        exact ⟨hm, hid⟩)
    rw [List.map_cons, List.map_nil, h1, h2, hpay] at this
    rw [List.flatMap_cons, List.flatMap_nil, List.append_nil] at this
    exact this
  have hout : (NewSwagger.CreateOperation (operationPart m p id payload)).1.String
        opsIter compsIter
      = unlines ([] :: (lit "paths:") :: ((lit "  ") ++ p ++ (lit ":"))
          :: operationLines (operationPart m p id payload)) := by
    rw [hstate] at ho ⊢
    rw [List.perm_singleton.1 ho, string_eq, sortFunc_single]
    simp only [List.nil_append, if_true, List.append_nil, List.flatMap_cons, List.flatMap_nil]
    rw [if_neg (by simp)]
    unfold entryLines
    rw [hcl]
  constructor
  · rw [hout, operationLines_operationPart m p id payload hm hp hid hl, unlines_cons,
      unlines_cons, unlines_cons, unlines_cons, unlines_cons, unlines_map_eq_flatMap]
    simp [List.append_assoc]
  · refine ⟨operationLines (operationPart m p id payload), ?_, ?_⟩
    · rw [hout, split_unlines]
      intro l hmem
      rcases List.mem_cons.1 hmem with rfl | hmem
      · simp
      · rcases List.mem_cons.1 hmem with rfl | hmem
        · decide
        · rcases List.mem_cons.1 hmem with rfl | hmem
          · intro hc
            simp only [List.mem_append] at hc
            rcases hc with (h | h) | h
            · exact absurd h (by decide)
            · exact token_no_break p hp h
            · exact absurd h (by decide)
          · exact operationLines_no_break _ (by rw [h1]; exact hm) (by rw [h2]; exact hid)
              l hmem
    · rw [operationLines_operationPart m p id payload hm hp hid hl]
      intro line hmem
      rcases List.mem_cons.1 hmem with rfl | hmem
      · exact ⟨m ++ (lit ":"), by simp⟩
      · rcases List.mem_cons.1 hmem with rfl | hmem
        · exact ⟨(lit "  operationId: ") ++ id, by simp⟩
        · obtain ⟨l0, _, rfl⟩ := List.mem_map.1 hmem
          exact ⟨(lit "  ") ++ l0, by simp⟩

/-- Witness of C15: the part `GET /a list` with two payload lines. -/
theorem rendered_operation_is_indented_witness :
    (NewSwagger.CreateOperation (operationPart (lit "GET") (lit "/a") (lit "list")
        [(lit "responses:"), (lit "  \"200\": ok")])).1.String
        [((lit "/a"), (lit "  GET:\n    operationId: list\n    responses:\n      \"200\": ok\n"))]
        []
      = lit ("\npaths:\n  /a:\n      GET:\n        operationId: list\n"
          ++ "        responses:\n          \"200\": ok\n") :=
  (rendered_operation_is_indented (lit "GET") (lit "/a") (lit "list")
    [(lit "responses:"), (lit "  \"200\": ok")] _ []
    ⟨by decide, by decide⟩ ⟨by decide, by decide⟩ ⟨by decide, by decide⟩ (by decide)
    (by decide)).1.trans (by decide)

/-! ## The sorted entries do not depend on the iteration order -/

theorem compareBytes_asymm (a b : List Nat) (h : compareBytes a b < 0) :
    ¬ compareBytes b a < 0 := by
  induction a generalizing b with
  | nil => cases b <;> simp [compareBytes] at h ⊢
  | cons x a1 ih =>
    cases b with
    | nil => simp [compareBytes] at h
    | cons y b1 =>
      simp only [compareBytes] at h ⊢
      split_ifs at h ⊢ <;> first | omega | exact ih b1 h

/-- Two iteration orders of a map give the same sorted entries. -/
theorem sortFunc_eq_of_perm (l1 l2 : GoMap) (hp : l1.Perm l2) (hn : (keysOf l1).Nodup) :
    SortFunc (fun a b => Compare a.1 b.1) l1 = SortFunc (fun a b => Compare a.1 b.1) l2 := by
  haveI : IsAntisymm (Str × Str) (fun a b => Compare a.1 b.1 < 0) :=
    ⟨fun a b hab hba => absurd hba (compareBytes_asymm _ _ hab)⟩
  have hn2 : (keysOf l2).Nodup := ((hp.map Prod.fst).nodup_iff).1 hn
  have hs1 := sortFunc_strict l1 hn
  have hs2 := sortFunc_strict l2 hn2
  unfold keysOf at hs1 hs2
  rw [List.pairwise_map] at hs1 hs2
  exact List.eq_of_perm_of_sorted
    (((sortFunc_perm _ l1).trans hp).trans (sortFunc_perm _ l2).symm) hs1 hs2

theorem perm_of_length_le_one {α : Type} (l1 l2 : List α) (hp : l1.Perm l2)
    (hl : l2.length ≤ 1) : l1 = l2 := by
  cases l2 with
  | nil => exact List.Perm.eq_nil hp
  | cons a t =>
    cases t with
    | nil => exact List.perm_singleton.1 hp
    | cons b t2 => simp at hl

/-! ## The order in which two paths are added (C16) -/

theorem mergeContent_eq (m : GoMap) (k c : Str) :
    mergeContent m k c
      = mapStore m k (match mapLookup m k with
          | some existingContent => existingContent ++ (lit "\n") ++ c
          | none => c) := by
  unfold mergeContent
  cases mapLookup m k <;> rfl

theorem mapStore_comm_perm (m : GoMap) (ka va kb vb : Str) (hne : ka ≠ kb) :
    (mapStore (mapStore m ka va) kb vb).Perm (mapStore (mapStore m kb vb) ka va) := by
  have hne2 : ¬ kb = ka := fun e => hne e.symm
  induction m with
  | nil =>
    simp only [mapStore, hne, hne2, if_false]
    exact List.Perm.swap _ _ _
  | cons e m ih =>
    obtain ⟨k1, v1⟩ := e
    by_cases h1 : k1 = ka
    · subst h1
      simp [mapStore, hne, hne2]
    · by_cases h2 : k1 = kb
      · subst h2
        simp [mapStore, hne, hne2]
      · simp only [mapStore, h1, h2, if_false]
        exact List.Perm.cons _ ih

theorem mapLookup_mergeContent_other (m : GoMap) (k c k2 : Str) (hk : k2 ≠ k) :
    mapLookup (mergeContent m k c) k2 = mapLookup m k2 := by
  rw [mergeContent_eq, mapLookup_mapStore_other m k _ k2 hk]

/-- Merging under two different keys gives the same map in either order, up
to the order of the entries. -/
theorem mergeContent_comm_perm (m : GoMap) (ka ca kb cb : Str) (hne : ka ≠ kb) :
    (mergeContent (mergeContent m ka ca) kb cb).Perm
      (mergeContent (mergeContent m kb cb) ka ca) := by
  rw [mergeContent_eq (mergeContent m ka ca) kb cb, mergeContent_eq (mergeContent m kb cb) ka ca,
    mapLookup_mergeContent_other m ka ca kb (fun e => hne e.symm),
    mapLookup_mergeContent_other m kb cb ka hne, mergeContent_eq m ka ca, mergeContent_eq m kb cb]
  exact mapStore_comm_perm m ka _ kb _ hne

/-- C16: for two accepted operation parts `a` and `b` with different paths and
a Swagger `s` (a Go map has distinct keys) whose components map holds at most
one type, `String()` after `CreateOperation(a)` then `CreateOperation(b)` and
`String()` after `CreateOperation(b)` then `CreateOperation(a)` are the same
text, for every iteration order of the maps in either state. -/
theorem string_same_in_either_order_of_paths (s : Swagger) (a b ma pa ida mb pb idb : Str)
    (tagsa tagsb : List Str) (o1 o2 c1 c2 : GoMap)
    (hn : (keysOf s.operations).Nodup) (hcomp : s.components.length ≤ 1)
    (ha : headerOf a = ma :: pa :: ida :: tagsa) (hb : headerOf b = mb :: pb :: idb :: tagsb)
    (hne : pa ≠ pb)
    (ho1 : o1.Perm ((s.CreateOperation a).1.CreateOperation b).1.operations)
    (hc1 : c1.Perm ((s.CreateOperation a).1.CreateOperation b).1.components)
    (ho2 : o2.Perm ((s.CreateOperation b).1.CreateOperation a).1.operations)
    (hc2 : c2.Perm ((s.CreateOperation b).1.CreateOperation a).1.components) :
    ((s.CreateOperation a).1.CreateOperation b).1.String o1 c1
      = ((s.CreateOperation b).1.CreateOperation a).1.String o2 c2 := by
  have hab : ((s.CreateOperation a).1.CreateOperation b).1
      = { s with operations := (mergeContent (mergeContent s.operations pa
            (operationContent ma ida (payloadOf a))) pb
            (operationContent mb idb (payloadOf b))) } := by
    rw [createOperation_ok s a ma pa ida tagsa ha, createOperation_ok _ b mb pb idb tagsb hb]
  have hba : ((s.CreateOperation b).1.CreateOperation a).1
      = { s with operations := (mergeContent (mergeContent s.operations pb
            (operationContent mb idb (payloadOf b))) pa
            (operationContent ma ida (payloadOf a))) } := by
    rw [createOperation_ok s b mb pb idb tagsb hb, createOperation_ok _ a ma pa ida tagsa ha]
  rw [hab] at ho1 hc1 ⊢
  rw [hba] at ho2 hc2 ⊢
  have hperm := mergeContent_comm_perm s.operations pa (operationContent ma ida (payloadOf a))
    pb (operationContent mb idb (payloadOf b)) hne
  have hnab : (keysOf (mergeContent (mergeContent s.operations pa
      (operationContent ma ida (payloadOf a))) pb (operationContent mb idb (payloadOf b)))).Nodup :=
    nodup_keysOf_mergeContent _ _ _ (nodup_keysOf_mergeContent _ _ _ hn)
  have hsort := sortFunc_eq_of_perm o1 o2 ((ho1.trans hperm).trans ho2.symm)
    (((ho1.map Prod.fst).nodup_iff).2 hnab)
  have hcc : c1 = c2 := by
    rw [perm_of_length_le_one c1 s.components hc1 hcomp,
      perm_of_length_le_one c2 s.components hc2 hcomp]
  rw [string_eq, string_eq, hsort, hcc]
  simp only [mergeContent_ne_nil, if_false]

/-- Witness of C16: a state with one component type and one path, then the
paths `/b` and `/a` added in the two orders. -/
theorem string_same_in_either_order_of_paths_witness :
    (((runCalls NewSwagger [Call.components (lit "schemas\nA: 1"),
          Call.operation (lit "GET /m x")]).CreateOperation
        (lit "GET /b y")).1.CreateOperation (lit "POST /a z\nk: v")).1.String
        (((runCalls NewSwagger [Call.components (lit "schemas\nA: 1"),
            Call.operation (lit "GET /m x")]).CreateOperation
          (lit "GET /b y")).1.CreateOperation (lit "POST /a z\nk: v")).1.operations
        [((lit "schemas"), (lit "  A: 1\n"))]
      = (((runCalls NewSwagger [Call.components (lit "schemas\nA: 1"),
          Call.operation (lit "GET /m x")]).CreateOperation
        (lit "POST /a z\nk: v")).1.CreateOperation (lit "GET /b y")).1.String
        (((runCalls NewSwagger [Call.components (lit "schemas\nA: 1"),
            Call.operation (lit "GET /m x")]).CreateOperation
          (lit "POST /a z\nk: v")).1.CreateOperation (lit "GET /b y")).1.operations
        [((lit "schemas"), (lit "  A: 1\n"))] :=
  string_same_in_either_order_of_paths
    (runCalls NewSwagger [Call.components (lit "schemas\nA: 1"),
      Call.operation (lit "GET /m x")])
    (lit "GET /b y") (lit "POST /a z\nk: v") (lit "GET") (lit "/b") (lit "y")
    (lit "POST") (lit "/a") (lit "z") [] [] _ _ _ _
    (by decide) (by decide) (by decide) (by decide) (by decide)
    (List.Perm.refl _) (by decide) (List.Perm.refl _) (by decide)

/-! ## Well-formed states -/

theorem wellFormed_new : NewSwagger.WellFormed := by
  simp [Swagger.WellFormed, NewSwagger, keysOf]

theorem wellFormed_run (s : Swagger) (c : Call) (h : s.WellFormed) : (Call.run s c).WellFormed := by
  obtain ⟨h1, h2, h3, h4⟩ := h
  cases c with
  | main part =>
    unfold Call.run Swagger.CreateMain
    simp only
    split
    · exact ⟨h1, h2, h3, h4⟩
    · split
      · exact ⟨h1, h2, h3, h4⟩
      · exact ⟨h1, h2, h3, h4⟩
  | operation part =>
    rcases header_cases part with ⟨m, path, id, tags, hh, _, hpath, _⟩ | herr
    · simp only [Call.run, createOperation_ok s part m path id tags hh]
      refine ⟨nodup_keysOf_mergeContent _ _ _ h1, h2, ?_, h4⟩
      intro k hk
      rcases (mem_keysOf_mergeContent _ _ _ _).1 hk with hk1 | hk1
      · exact h3 k hk1
      · exact hk1 ▸ hpath
    · simp only [Call.run, createOperation_err s part herr]
      exact ⟨h1, h2, h3, h4⟩
  | components part =>
    rcases hf : headerOf part with _ | ⟨t, rest⟩
    · simp only [Call.run, createComponents_err s part hf]
      exact ⟨h1, h2, h3, h4⟩
    · have htok : IsToken t := by
        have := fields_tokens (firstLine part) t
        unfold headerOf at hf
        rw [hf] at this
        exact this (by simp)
      simp only [Call.run, createComponents_ok s part t rest hf]
      refine ⟨h1, nodup_keysOf_mergeContent _ _ _ h2, h3, ?_⟩
      intro k hk
      rcases (mem_keysOf_mergeContent _ _ _ _).1 hk with hk1 | hk1
      · exact h4 k hk1
      · exact hk1 ▸ htok

/-- Every state the merge methods build from the empty Swagger is well-formed. -/
theorem wellFormed_runCalls (calls : List Call) : (runCalls NewSwagger calls).WellFormed := by
  have key : ∀ (s : Swagger), s.WellFormed → (runCalls s calls).WellFormed := by
    induction calls with
    | nil => exact fun s h => h
    | cons c cs ih => exact fun s h => ih (Call.run s c) (wellFormed_run s c h)
  exact key NewSwagger wellFormed_new

/-! ## Iteration order of the maps (C17) -/

theorem first_line_eq (a b x y : Str) (ha : (rune '\n') ∉ a) (hb : (rune '\n') ∉ b)
    (h : a ++ (rune '\n') :: x = b ++ (rune '\n') :: y) : a = b := by
  have h1 := split_append_sep a x (rune '\n') ha
  have h2 := split_append_sep b y (rune '\n') hb
  rw [h, h2] at h1
  exact (List.cons.inj h1).1.symm

theorem keyLine_no_break (k : Str) (hk : IsToken k) :
    (rune '\n') ∉ (lit "  ") ++ k ++ (lit ":") := by
  intro hc
  simp only [List.mem_append] at hc
  rcases hc with (h | h) | h
  · exact absurd h (by decide)
  · exact token_no_break k hk h
  · exact absurd h (by decide)

/-- Entries written in two orders that begin with different keys give
different texts. -/
theorem writeEntries_first_key (e1 e2 : Str × Str) (r1 r2 : GoMap)
    (h1 : IsToken e1.1) (h2 : IsToken e2.1) (hne : e1.1 ≠ e2.1) :
    unlines ((e1 :: r1).flatMap entryLines) ≠ unlines ((e2 :: r2).flatMap entryLines) := by
  intro h
  rw [List.flatMap_cons, List.flatMap_cons] at h
  unfold entryLines at h
  rw [List.cons_append, List.cons_append, unlines_cons, unlines_cons] at h
  have hk := first_line_eq _ _ _ _ (keyLine_no_break e1.1 h1) (keyLine_no_break e2.1 h2) h
  have hk2 : e1.1 = e2.1 := by
    have := List.append_cancel_right hk
    exact List.append_cancel_left this
  exact hne hk2

/-- C17: for a well-formed Swagger, `String()` returns the same text for every
iteration order of the operations map, and the same text for every iteration
order of the components map when that map holds at most one type; when it holds
two types or more, two iteration orders of the components map give different
texts. -/
theorem string_depends_only_on_components_order (s : Swagger) (hwf : s.WellFormed) :
    (∀ o1 o2 c, o1.Perm s.operations → o2.Perm s.operations → s.String o1 c = s.String o2 c) ∧
    (s.components.length ≤ 1 → ∀ o c1 c2, c1.Perm s.components → c2.Perm s.components →
      s.String o c1 = s.String o c2) ∧
    (2 ≤ s.components.length → ∀ o, ∃ c1 c2, c1.Perm s.components ∧ c2.Perm s.components ∧
      s.String o c1 ≠ s.String o c2) := by
  obtain ⟨hn1, hn2, _, ht2⟩ := hwf
  refine ⟨?_, ?_, ?_⟩
  · intro o1 o2 c ho1 ho2
    rw [string_eq, string_eq,
      sortFunc_eq_of_perm o1 o2 (ho1.trans ho2.symm) (((ho1.map Prod.fst).nodup_iff).2 hn1)]
  · intro hlen o c1 c2 hc1 hc2
    rw [perm_of_length_le_one c1 s.components hc1 hlen,
      perm_of_length_le_one c2 s.components hc2 hlen]
  · intro hlen o
    rcases hcs : s.components with _ | ⟨e1, _ | ⟨e2, rest⟩⟩
    · rw [hcs] at hlen
      simp at hlen
    · rw [hcs] at hlen
      simp at hlen
    · rw [hcs] at hn2 ht2
      have hne : e1.1 ≠ e2.1 := by
        intro e
        simp only [keysOf, List.map_cons, List.nodup_cons, List.mem_cons] at hn2
        exact hn2.1 (Or.inl e)
      have h1 : IsToken e1.1 := ht2 e1.1 (by simp [keysOf])
      have h2 : IsToken e2.1 := ht2 e2.1 (by simp [keysOf])
      refine ⟨e1 :: e2 :: rest, e2 :: e1 :: rest, List.Perm.refl _, List.Perm.swap _ _ _, ?_⟩
      intro heq
      rw [string_eq, string_eq, hcs] at heq
      have h3 := List.append_cancel_left heq
      rw [if_neg (by simp), if_neg (by simp), unlines_cons, unlines_cons] at h3
      have h4 := List.append_cancel_left h3
      exact writeEntries_first_key e1 e2 _ _ h1 h2 hne (List.cons.inj h4).2

/-- Witness of C17: a state with two component types; two iteration orders of
its components map give different texts. -/
theorem string_depends_only_on_components_order_witness :
    ∃ c1 c2,
      c1.Perm (runCalls NewSwagger [Call.components (lit "schemas\nA: 1"),
        Call.components (lit "responses\nB: 2")]).components ∧
      c2.Perm (runCalls NewSwagger [Call.components (lit "schemas\nA: 1"),
        Call.components (lit "responses\nB: 2")]).components ∧
      (runCalls NewSwagger [Call.components (lit "schemas\nA: 1"),
          Call.components (lit "responses\nB: 2")]).String [] c1
        ≠ (runCalls NewSwagger [Call.components (lit "schemas\nA: 1"),
          Call.components (lit "responses\nB: 2")]).String [] c2 :=
  (string_depends_only_on_components_order
    (runCalls NewSwagger [Call.components (lit "schemas\nA: 1"),
      Call.components (lit "responses\nB: 2")])
    (wellFormed_runCalls _)).2.2 (by decide) []

/-! ## What each merge method leaves unchanged (C18) -/

/-- C18: a successful `CreateOperation` leaves main, mainSet, the components
and the entry of every path other than its own (the second header token)
unchanged; a successful `CreateComponents` leaves main, mainSet, the operations
and the entry of every component type other than its own (the first header
token) unchanged; a successful `CreateMain` stores its payload as main, sets
mainSet and leaves the operations and the components unchanged. -/
theorem merge_methods_frame (s : Swagger) (part : Str) :
    ((s.CreateOperation part).2 = none →
      (s.CreateOperation part).1.main = s.main ∧
      (s.CreateOperation part).1.mainSet = s.mainSet ∧
      (s.CreateOperation part).1.components = s.components ∧
      ∀ k, k ≠ (headerOf part).getD 1 [] →
        mapLookup (s.CreateOperation part).1.operations k = mapLookup s.operations k) ∧
    ((s.CreateComponents part).2 = none →
      (s.CreateComponents part).1.main = s.main ∧
      (s.CreateComponents part).1.mainSet = s.mainSet ∧
      (s.CreateComponents part).1.operations = s.operations ∧
      ∀ k, k ≠ (headerOf part).headD [] →
        mapLookup (s.CreateComponents part).1.components k = mapLookup s.components k) ∧
    ((s.CreateMain part).2 = none →
      (s.CreateMain part).1.main = part ∧
      (s.CreateMain part).1.mainSet = true ∧
      (s.CreateMain part).1.operations = s.operations ∧
      (s.CreateMain part).1.components = s.components) := by
  refine ⟨?_, ?_, ?_⟩
  · intro hok
    rcases header_cases part with ⟨m, path, id, tags, hh, _, _, _⟩ | herr
    · rw [createOperation_ok s part m path id tags hh, hh]
      refine ⟨rfl, rfl, rfl, ?_⟩
      intro k hk
      exact mapLookup_mergeContent_other _ _ _ k hk
    · rw [createOperation_err s part herr] at hok
      simp at hok
  · intro hok
    rcases hf : headerOf part with _ | ⟨t, rest⟩
    · rw [createComponents_err s part hf] at hok
      simp at hok
    · rw [createComponents_ok s part t rest hf]
      refine ⟨rfl, rfl, rfl, ?_⟩
      intro k hk
      exact mapLookup_mergeContent_other _ _ _ k hk
  · intro hok
    refine ⟨createMain_ok_main s part hok, createMain_ok_mainSet s part hok, ?_, ?_⟩
    · unfold Swagger.CreateMain
      split
      · rfl
      · split <;> rfl
    · unfold Swagger.CreateMain
      split
      · rfl
      · split <;> rfl

end SwaggerBuilder
